import Mathlib

/-!
# Verification of the transaction-pool core (`execution` repository)

Shallow embedding of the transaction-pool data structures and operations:

* `txpool.SortedMap` (src/unnamed/part_002) — a per-account nonce→transaction
  map backed by an AVL tree of nonces.  The Go map/AVL pair is embedded as an
  association list `List (Nat × PoolTx)`; the AVL tree of nonces only provides
  `Smallest`/`Largest`/`Search` over the key set, which the embedding computes
  directly from the keys of the association list.  Go `range` order over the
  hash map is modelled by the list order.
* `txpool.list` (src/txpool/list.go) — the per-account list with
  `costcap`/`gascap`/`totalcost` bookkeeping.
* `txpool_instance.Lookup` (src/txpool/pool_instance/lookup.go) — the global
  hash→transaction store with a slot counter.
* `txpool_instance.PricedList` (src/txpool/pool_instance/priced_list.go) —
  the dual-heap priced view of remote transactions.  Go's `container/heap`
  (a binary min-heap under `Less`) is modelled by keeping the slice sorted
  under the heap order: `heap.Push` is ordered insertion, `heap.Pop` removes
  the least element, `heap.Init` sorts.  This preserves the observable
  semantics of the Go heap (every pop returns a least element under `Less`).
* `txpool_instance.ValidateTransaction` (src/txpool/pool_instance/tx_validation.go)
  together with `types.Transaction.Type` and `IntrinsicGas`
  (src/types/transaction.go).

`math/big` integers are embedded as `Int` (`big.Int.Div` is Euclidean
division, i.e. `Int.ediv`); `uint64` arithmetic that can overflow carries an
explicit `% 2 ^ 64`; the `int64(priceBump)` conversion in `list.Add` is
modelled by an explicit two's-complement wrap.
-/

namespace Execution

/-- Number of bits in the value of a nonnegative integer, as Go's
`big.Int.BitLen` computes it for the absolute value. -/
def natBitLen (n : Nat) : Nat :=
  if n = 0 then 0 else Nat.log2 n + 1

/-- Go `big.Int.BitLen` (bit length of the absolute value). -/
def intBitLen (z : Int) : Nat := natBitLen z.natAbs

/-- Two's-complement wrap of an unbounded integer into the `int64` range,
modelling Go's `int64(x)` conversions and `int64` arithmetic overflow. -/
def int64Wrap (z : Int) : Int :=
  (z + 2 ^ 63) % 2 ^ 64 - 2 ^ 63

/-! ## Transactions as seen by `txpool.list` / `txpool.SortedMap`

`list.go` and the `SortedMap` use transactions only through the opaque
accessor surface `TxPreface().Nonce()`, `TxPreface().GasPrice()`,
`TxPreface().GasLimit()` and `Cost()` (the interface variant of
`types.Transaction`, src/unnamed/part_005).  `Cost()`'s value depends on the
transaction kind and is opaque to the list code, so it is a field here. -/

structure PoolTx where
  nonce : Nat
  gasPrice : Int
  gasLimit : Nat
  cost : Int
  deriving DecidableEq, Repr

/-- `txpool.SortedMap`: the `items` hash map and the AVL `tree` of nonces,
embedded as an association list keyed by nonce. -/
abbrev SortedMap : Type := List (Nat × PoolTx)

namespace SortedMap

/-- The key set of the map (the nonces stored in the AVL tree). -/
def keys (m : SortedMap) : List Nat := m.map Prod.fst

/-- Minimum of a key list; `AVLTree.Smallest` returns an error on the empty
tree, modelled by `none`. -/
def keysMin : List Nat → Option Nat
  | [] => none
  | k :: ks =>
    match keysMin ks with
    | none => some k
    | some m => some (min k m)

/-- Maximum of a key list; `AVLTree.Largest` errors on the empty tree. -/
def keysMax : List Nat → Option Nat
  | [] => none
  | k :: ks =>
    match keysMax ks with
    | none => some k
    | some m => some (max k m)

/-- `SortedMap.Get` (Go hash-map indexing). -/
def get (m : SortedMap) (nonce : Nat) : Option PoolTx :=
  match m with
  | [] => none
  | e :: rest => if e.1 = nonce then some e.2 else get rest nonce

/-- `m.tree.Smallest()`. -/
def smallest (m : SortedMap) : Option Nat := keysMin (keys m)

/-- `m.tree.Largest()`. -/
def largest (m : SortedMap) : Option Nat := keysMax (keys m)

/-- `SortedMap.Put`: store/replace under `tx.TxPreface().Nonce()`. -/
def put (m : SortedMap) (tx : PoolTx) : SortedMap :=
  match m with
  | [] => [(tx.nonce, tx)]
  | e :: rest =>
    if e.1 = tx.nonce then (tx.nonce, tx) :: rest
    else e :: put rest tx

/-- Deletion of a nonce from both `items` and `tree`. -/
def removeKey (m : SortedMap) (nonce : Nat) : SortedMap :=
  m.filter (fun e => e.1 ≠ nonce)

/-- `SortedMap.Remove`. -/
def remove (m : SortedMap) (nonce : Nat) : Bool × SortedMap :=
  match get m nonce with
  | none => (false, m)
  | some _ => (true, removeKey m nonce)

/-- Loop body of `SortedMap.Forward`.  The Go loop repeatedly removes the
smallest nonce while it satisfies the loop guard; each iteration removes one
entry, so `m.length` iterations always suffice, which the explicit counter
records (it plays the role of Go's implicit termination argument). -/
def forwardLoop : Nat → SortedMap → Nat → SortedMap × List PoolTx
  | 0, m, _ => (m, [])
  | fuel + 1, m, threshold =>
    match smallest m with
    | none => (m, [])
    | some nonce =>
      -- Go: `if nonce > threshold || err != nil { break }`
      if nonce > threshold then (m, [])
      else
        match get m nonce with
        | none => (m, [])
        | some tx =>
          let res := forwardLoop fuel (removeKey m nonce) threshold
          (res.1, tx :: res.2)

/-- `SortedMap.Forward` (src/unnamed/part_002, lines 35–48). -/
def forward (m : SortedMap) (threshold : Nat) : SortedMap × List PoolTx :=
  forwardLoop m.length m threshold

/-- `SortedMap.Filter` (and the heap-free `filter`): remove and return every
entry satisfying the predicate.  Go iterates the hash map in unspecified
order; the embedding uses the list order. -/
def filterOut (m : SortedMap) (p : PoolTx → Bool) : SortedMap × List PoolTx :=
  (m.filter (fun e => ¬ p e.2), (m.filter (fun e => p e.2)).map Prod.snd)

/-- Loop of `SortedMap.Cap`: while `size > threshold`, remove the largest
nonce.  `size` is Go's own loop counter (initialised to `len(m.items)`). -/
def capLoop : Nat → Nat → SortedMap → SortedMap × List PoolTx
  | 0, _, m => (m, [])
  | size + 1, threshold, m =>
    if size + 1 > threshold then
      match largest m with
      | none => (m, [])
      | some nonce =>
        match get m nonce with
        | none => (m, [])
        | some tx =>
          let res := capLoop size threshold (removeKey m nonce)
          (res.1, tx :: res.2)
    else (m, [])

/-- `SortedMap.Cap`. -/
def cap (m : SortedMap) (threshold : Nat) : SortedMap × List PoolTx :=
  if m.length ≤ threshold then (m, [])
  else capLoop m.length threshold m

/-- Loop of `SortedMap.Ready`.  Mirrors the Go loop
`for next := smallest; size > 0 && smallest == next && total ≤ threshold; next++`
with its own `size` counter; `total` already includes the cost of the entry
at `smallest` when the guard is evaluated. -/
def readyLoop : Nat → SortedMap → Nat → Nat → Int → Int → SortedMap × List PoolTx
  | 0, m, _, _, _, _ => (m, [])
  | size + 1, m, smallestN, next, total, threshold =>
    if smallestN = next ∧ total ≤ threshold then
      match get m smallestN with
      | none => (m, [])
      | some tx =>
        let m' := removeKey m smallestN
        match smallest m' with
        | none => (m', [tx])
        | some s2 =>
          match get m' s2 with
          | none => (m', [tx])
          | some tx2 =>
            let res := readyLoop size m' s2 (next + 1) (total + tx2.cost) threshold
            (res.1, tx :: res.2)
    else (m, [])

/-- `SortedMap.Ready` (src/unnamed/part_002, lines 95–124): pop the
contiguous run starting at the smallest nonce while the cumulative cost stays
within `threshold`; return nothing if the map is empty or the smallest nonce
exceeds `start`. -/
def ready (m : SortedMap) (start : Nat) (threshold : Int) : SortedMap × List PoolTx :=
  if m.length = 0 then (m, [])
  else
    match smallest m with
    | none => (m, [])
    | some s =>
      if s > start then (m, [])
      else
        match get m s with
        | none => (m, [])
        | some tx => readyLoop m.length m s s tx.cost threshold

/-- `SortedMap.Len`. -/
def len (m : SortedMap) : Nat := m.length

end SortedMap

/-! ## `txpool.list` (src/txpool/list.go)

The account list wrapping the sorted map with `costcap`, `gascap` and
`totalcost` bookkeeping.  `list.go` instantiates the lowercase `sortedMap`
variant, whose file is not among the sources; its operations are taken from
the in-repository `SortedMap` (src/unnamed/part_002), the only sorted-map
implementation present.  The `reheap` call in `Filter` maintains the
nonce index of the heap-based variant and has no counterpart in the
tree-backed map, so it does not appear in the embedding. -/

structure TxList where
  strict : Bool
  txs : SortedMap
  costcap : Int
  gascap : Nat
  totalcost : Int
  deriving DecidableEq

namespace TxList

/-- `newList`. -/
def mk0 (strict : Bool) : TxList :=
  { strict := strict, txs := [], costcap := 0, gascap := 0, totalcost := 0 }

/-- `list.subTotalCost`: subtract the costs of the given transactions from
`totalcost`. -/
def subTotalCost (total : Int) (txs : List PoolTx) : Int :=
  txs.foldl (fun t tx => t - tx.cost) total

/-- Shared tail of `list.Add` after the replacement checks: add the new cost,
overwrite the slot, and raise the caps. -/
def addFinish (l : TxList) (tx : PoolTx) : TxList :=
  { l with
    totalcost := l.totalcost + tx.cost
    txs := l.txs.put tx
    costcap := if l.costcap < tx.cost then tx.cost else l.costcap
    gascap := if l.gascap < tx.gasLimit then tx.gasLimit else l.gascap }

/-- `list.Add` (src/txpool/list.go, lines 61–95).  Returns
`(accepted, replaced, updated list)`.  The replacement threshold is
`oldPrice * (100 + priceBump) / 100` where `100 + int64(priceBump)` is
computed in Go `int64` arithmetic (hence the two's-complement wrap) and the
division is `big.Int.Div`, i.e. Euclidean division `Int.ediv`. -/
def add (l : TxList) (tx : PoolTx) (priceBump : Nat) :
    Bool × Option PoolTx × TxList :=
  match l.txs.get tx.nonce with
  | some old =>
    -- Go: `old.GasPrice().Cmp(tx.GasPrice()) >= 0` rejects
    if tx.gasPrice ≤ old.gasPrice then (false, none, l)
    else
      let a : Int := int64Wrap (100 + int64Wrap (priceBump : Int))
      let aFee : Int := a * old.gasPrice
      let thresholdFeeCap : Int := Int.ediv aFee 100
      if tx.gasPrice < thresholdFeeCap then (false, none, l)
      else
        -- old is replaced: first subtract its cost, then run the common tail
        (true, some old,
          addFinish { l with totalcost := subTotalCost l.totalcost [old] } tx)
  | none => (true, none, addFinish l tx)

/-- `list.Forward`. -/
def forward (l : TxList) (threshold : Nat) : TxList × List PoolTx :=
  let res := l.txs.forward threshold
  ({ l with txs := res.1, totalcost := subTotalCost l.totalcost res.2 }, res.2)

/-- The removal predicate of `list.Filter`. -/
def filterPred (costLimit : Int) (gasLimit : Nat) (tx : PoolTx) : Bool :=
  tx.gasLimit > gasLimit || tx.cost > costLimit

/-- Go folds the removed list to find the lowest removed nonce, starting
from `math.MaxUint64`. -/
def lowestNonce (removed : List PoolTx) : Nat :=
  removed.foldl (fun lowest tx => if lowest > tx.nonce then tx.nonce else lowest)
    (2 ^ 64 - 1)

/-- `list.Filter` (src/txpool/list.go, lines 115–147): short-circuit on the
caps, otherwise lower the caps, drop every entry over either threshold, and
in strict mode additionally drop everything above the lowest removed nonce. -/
def filter (l : TxList) (costLimit : Int) (gasLimit : Nat) :
    TxList × List PoolTx × List PoolTx :=
  if l.costcap ≤ costLimit ∧ l.gascap ≤ gasLimit then (l, [], [])
  else
    let l1 : TxList := { l with costcap := costLimit, gascap := gasLimit }
    let res := l1.txs.filterOut (filterPred costLimit gasLimit)
    let removed := res.2
    if removed.isEmpty then ({ l1 with txs := res.1 }, [], [])
    else
      let invRes :=
        if l1.strict then
          res.1.filterOut (fun tx => decide (tx.nonce > lowestNonce removed))
        else (res.1, [])
      let invalids := invRes.2
      ({ l1 with
          txs := invRes.1
          totalcost := subTotalCost (subTotalCost l1.totalcost removed) invalids },
        removed, invalids)

/-- `list.Cap`. -/
def capN (l : TxList) (threshold : Nat) : TxList × List PoolTx :=
  let res := l.txs.cap threshold
  ({ l with txs := res.1, totalcost := subTotalCost l.totalcost res.2 }, res.2)

/-- `list.Remove` (src/txpool/list.go, lines 160–174). -/
def removeTx (l : TxList) (tx : PoolTx) : Bool × TxList × List PoolTx :=
  let nonce := tx.nonce
  match l.txs.remove nonce with
  | (false, _) => (false, l, [])
  | (true, m1) =>
    let l1 : TxList := { l with txs := m1, totalcost := subTotalCost l.totalcost [tx] }
    if l1.strict then
      let res := l1.txs.filterOut (fun t => decide (t.nonce > nonce))
      (true, { l1 with txs := res.1, totalcost := subTotalCost l1.totalcost res.2 }, res.2)
    else (true, l1, [])

/-- `list.Ready`.  The in-repository `SortedMap.Ready` budgets by balance
(src/unnamed/part_002; the spec unifies on this variant), so the wrapper
passes the balance through; the `totalcost` bookkeeping is the part under
study. -/
def ready (l : TxList) (start : Nat) (balance : Int) : TxList × List PoolTx :=
  let res := l.txs.ready start balance
  ({ l with txs := res.1, totalcost := subTotalCost l.totalcost res.2 }, res.2)

end TxList

/-! ## Cost-sum bookkeeping (towards the `totalcost` invariant) -/

/-- Sum of `Cost()` over a plain transaction list. -/
def sumCostList (txs : List PoolTx) : Int := (txs.map (fun tx => tx.cost)).sum

/-- Sum of `Cost()` over all transactions stored in a map. -/
def sumCost (m : SortedMap) : Int := (m.map (fun e => e.2.cost)).sum

@[simp]
theorem sumCostList_nil : sumCostList [] = 0 := rfl

@[simp]
theorem sumCostList_cons (tx : PoolTx) (txs : List PoolTx) :
    sumCostList (tx :: txs) = tx.cost + sumCostList txs := rfl

@[simp]
theorem sumCost_nil : sumCost [] = 0 := rfl

@[simp]
theorem sumCost_cons (e : Nat × PoolTx) (m : SortedMap) :
    sumCost (e :: m) = e.2.cost + sumCost m := rfl

/-- `subTotalCost` subtracts exactly the summed costs. -/
theorem subTotalCost_eq (total : Int) (txs : List PoolTx) :
    TxList.subTotalCost total txs = total - sumCostList txs := by
  induction txs generalizing total with
  | nil => simp [TxList.subTotalCost]
  | cons tx rest ih =>
    simp only [TxList.subTotalCost, List.foldl_cons] at *
    rw [ih]
    simp [sumCostList]
    ring

namespace SortedMap

theorem removeKey_cons_of_eq {e : Nat × PoolTx} {rest : SortedMap} {n : Nat}
    (he : e.1 = n) : removeKey (e :: rest) n = removeKey rest n := by
  simp [removeKey, List.filter_cons, he]

theorem removeKey_cons_of_ne {e : Nat × PoolTx} {rest : SortedMap} {n : Nat}
    (he : e.1 ≠ n) : removeKey (e :: rest) n = e :: removeKey rest n := by
  simp [removeKey, List.filter_cons, he]

theorem get_eq_some_mem {m : SortedMap} {n : Nat} {tx : PoolTx}
    (h : get m n = some tx) : (n, tx) ∈ m := by
  induction m with
  | nil => cases h
  | cons e rest ih =>
    by_cases he : e.1 = n
    · simp only [get, if_pos he] at h
      cases h
      cases e with
      | mk k v =>
        simp only at he
        subst he
        exact List.mem_cons_self _ _
    · simp only [get, if_neg he] at h
      exact List.mem_cons_of_mem _ (ih h)

theorem get_eq_none_forall {m : SortedMap} {n : Nat}
    (h : get m n = none) : ∀ e ∈ m, e.1 ≠ n := by
  induction m with
  | nil => intro e he; cases he
  | cons e rest ih =>
    by_cases he : e.1 = n
    · simp [get, if_pos he] at h
    · simp only [get, if_neg he] at h
      intro f hf
      rcases List.mem_cons.mp hf with hf | hf
      · subst hf; exact he
      · exact ih h f hf

theorem removeKey_of_get_none {m : SortedMap} {n : Nat}
    (h : get m n = none) : removeKey m n = m := by
  unfold removeKey
  exact List.filter_eq_self.mpr (fun e he => by
    simpa using get_eq_none_forall h e he)

/-- Keys of the filtered map form a sublist of the original keys. -/
theorem keys_filter_sublist (m : SortedMap) (p : Nat × PoolTx → Bool) :
    List.Sublist (keys (m.filter p)) (keys m) :=
  List.Sublist.map Prod.fst (List.filter_sublist m)

theorem nodup_keys_filter {m : SortedMap} (p : Nat × PoolTx → Bool)
    (h : (keys m).Nodup) : (keys (m.filter p)).Nodup :=
  (keys_filter_sublist m p).nodup h

theorem nodup_keys_removeKey {m : SortedMap} (n : Nat)
    (h : (keys m).Nodup) : (keys (removeKey m n)).Nodup :=
  nodup_keys_filter _ h

/-- Removing a present key subtracts exactly the stored cost (keys distinct). -/
theorem sumCost_removeKey {m : SortedMap} {n : Nat} {tx : PoolTx}
    (hnd : (keys m).Nodup) (h : get m n = some tx) :
    sumCost (removeKey m n) = sumCost m - tx.cost := by
  induction m with
  | nil => cases h
  | cons e rest ih =>
    simp only [keys, List.map_cons, List.nodup_cons] at hnd
    by_cases he : e.1 = n
    · simp only [get, if_pos he] at h
      cases h
      rw [removeKey_cons_of_eq he]
      have hrest : removeKey rest n = rest := by
        apply List.filter_eq_self.mpr
        intro f hf
        have hfn : f.1 ≠ n := by
          intro hfn
          exact hnd.1 (he ▸ hfn ▸ List.mem_map_of_mem Prod.fst hf)
        simpa using hfn
      rw [hrest, sumCost_cons]
      ring
    · simp only [get, if_neg he] at h
      rw [removeKey_cons_of_ne he, sumCost_cons, sumCost_cons, ih hnd.2 h]
      ring

/-- Replacing a fresh nonce appends the entry. -/
theorem put_of_get_none {m : SortedMap} {tx : PoolTx}
    (h : get m tx.nonce = none) : put m tx = m ++ [(tx.nonce, tx)] := by
  induction m with
  | nil => rfl
  | cons e rest ih =>
    by_cases he : e.1 = tx.nonce
    · simp [get, if_pos he] at h
    · simp only [get, if_neg he] at h
      simp only [put, if_neg he]
      rw [ih h]
      rfl

/-- Replacing an occupied nonce swaps the stored cost for the new one. -/
theorem sumCost_put_replace {m : SortedMap} {tx old : PoolTx}
    (h : get m tx.nonce = some old) :
    sumCost (put m tx) = sumCost m - old.cost + tx.cost := by
  induction m with
  | nil => cases h
  | cons e rest ih =>
    by_cases he : e.1 = tx.nonce
    · simp only [get, if_pos he] at h
      cases h
      simp only [put, if_pos he]
      simp
      ring
    · simp only [get, if_neg he] at h
      simp only [put, if_neg he]
      have := ih h
      simp [this]
      ring

theorem keys_put_replace {m : SortedMap} {tx : PoolTx} {old : PoolTx}
    (h : get m tx.nonce = some old) : keys (put m tx) = keys m := by
  induction m with
  | nil => cases h
  | cons e rest ih =>
    by_cases he : e.1 = tx.nonce
    · simp only [put, if_pos he]
      simp [keys, he]
    · simp only [get, if_neg he] at h
      simp only [put, if_neg he]
      simp [keys] at ih ⊢
      exact ih h

theorem nodup_keys_put {m : SortedMap} {tx : PoolTx}
    (h : (keys m).Nodup) : (keys (put m tx)).Nodup := by
  cases hg : get m tx.nonce with
  | none =>
    rw [put_of_get_none hg]
    simp only [keys, List.map_append, List.map_cons, List.map_nil]
    rw [List.nodup_append]
    refine ⟨h, List.nodup_singleton _, ?_⟩
    intro k hk
    have := get_eq_none_forall hg
    simp only [keys, List.mem_map] at hk
    obtain ⟨e, he, rfl⟩ := hk
    simp only [List.mem_singleton]
    exact this e he
  | some old => rw [keys_put_replace hg]; exact h

end SortedMap

/-! ## Concrete transactions and lists used by witnesses and counterexamples -/

/-- A transaction at nonce 5 (used for the Forward threshold check). -/
def txF5 : PoolTx := { nonce := 5, gasPrice := 1, gasLimit := 1, cost := 1 }

/-- Existing transaction: nonce 5, gas price 100. -/
def oldA : PoolTx := { nonce := 5, gasPrice := 100, gasLimit := 21000, cost := 100 }

/-- Replacement candidate: nonce 5, gas price 110. -/
def txA110 : PoolTx := { nonce := 5, gasPrice := 110, gasLimit := 21000, cost := 110 }

/-- Replacement candidate: nonce 5, gas price 101. -/
def txA101 : PoolTx := { nonce := 5, gasPrice := 101, gasLimit := 21000, cost := 101 }

/-- A pending list holding `oldA` at nonce 5. -/
def lA : TxList :=
  { strict := true, txs := [(5, oldA)], costcap := 100, gascap := 21000, totalcost := 100 }

/-- `int64Wrap` is the identity on the `int64` range. -/
theorem int64Wrap_eq_self {z : Int} (h0 : -(2 ^ 63) ≤ z) (h1 : z < 2 ^ 63) :
    int64Wrap z = z := by
  unfold int64Wrap
  have hlo : (0 : Int) ≤ z + 2 ^ 63 := by omega
  have hhi : z + 2 ^ 63 < 2 ^ 64 := by omega
  rw [Int.emod_eq_of_lt hlo hhi]
  omega

/-- C1 (amended): if an account list already holds `old` at `tx.nonce` and
`100 + priceBump` stays inside the `int64` range (so that Go's
`big.NewInt(100 + int64(priceBump))` does not wrap), then `Add` accepts `tx`
iff `tx.gasPrice` is strictly greater than `old.gasPrice` and at least
`old.gasPrice * (100 + priceBump) / 100` under integer division; on rejection
it returns `(false, nil)` with the list unchanged, and on acceptance the old
transaction is replaced in the map and returned. -/
theorem list_add_replacement (l : TxList) (tx old : PoolTx) (priceBump : Nat)
    (hold : l.txs.get tx.nonce = some old)
    (hpb : (priceBump : Int) + 100 < 2 ^ 63) :
    ((l.add tx priceBump).1 = true ↔
      old.gasPrice < tx.gasPrice ∧
        Int.ediv (old.gasPrice * (100 + (priceBump : Int))) 100 ≤ tx.gasPrice) ∧
    ((l.add tx priceBump).1 = false → l.add tx priceBump = (false, none, l)) ∧
    ((l.add tx priceBump).1 = true →
      (l.add tx priceBump).2.1 = some old ∧
        (l.add tx priceBump).2.2.txs = l.txs.put tx) := by
  have hb0 : (0 : Int) ≤ (priceBump : Int) := Int.natCast_nonneg _
  have hwrap1 : int64Wrap (priceBump : Int) = (priceBump : Int) :=
    int64Wrap_eq_self (by omega) (by omega)
  have hwrap2 : int64Wrap (100 + (priceBump : Int)) = 100 + (priceBump : Int) :=
    int64Wrap_eq_self (by omega) (by omega)
  by_cases hle : tx.gasPrice ≤ old.gasPrice
  · have hres : l.add tx priceBump = (false, none, l) := by
      simp only [TxList.add, hold, if_pos hle]
    rw [hres]
    refine ⟨⟨fun h => (nomatch h), ?_⟩, fun _ => rfl, fun h => (nomatch h)⟩
    rintro ⟨hlt, -⟩; omega
  · by_cases hth : tx.gasPrice < Int.ediv ((100 + (priceBump : Int)) * old.gasPrice) 100
    · have hres : l.add tx priceBump = (false, none, l) := by
        simp only [TxList.add, hold, if_neg hle, hwrap1, hwrap2, if_pos hth]
      rw [hres]
      refine ⟨⟨fun h => (nomatch h), ?_⟩, fun _ => rfl, fun h => (nomatch h)⟩
      rintro ⟨-, hge⟩
      rw [mul_comm old.gasPrice] at hge
      omega
    · have hres : l.add tx priceBump =
          (true, some old,
            TxList.addFinish
              { l with totalcost := TxList.subTotalCost l.totalcost [old] } tx) := by
        simp only [TxList.add, hold, if_neg hle, hwrap1, hwrap2, if_neg hth]
      rw [hres]
      refine ⟨⟨fun _ => ⟨by omega, ?_⟩, fun _ => rfl⟩, fun h => (nomatch h),
        fun _ => ⟨rfl, rfl⟩⟩
      rw [mul_comm old.gasPrice]
      omega

/-- C1 witness: in `lA` (old price 100), adding price 110 with
`priceBump = 10` is accepted, in accordance with `list_add_replacement`. -/
theorem list_add_replacement_witness :
    lA.txs.get txA110.nonce = some oldA ∧
      ((10 : Nat) : Int) + 100 < 2 ^ 63 ∧ (lA.add txA110 10).1 = true :=
  ⟨rfl, by decide,
    (list_add_replacement lA txA110 oldA 10 rfl (by decide)).1.mpr (by decide)⟩

/-- C1 counterexample: with `priceBump = 2 ^ 63` the Go code computes the
threshold from the wrapped value `int64(priceBump)`, so the replacement at
price 101 over an old price of 100 is accepted even though
`old.gasPrice * (100 + priceBump) / 100 = 2 ^ 63 + 100` far exceeds 101 —
the claim as stated (exact integer formula for every `priceBump`) is false. -/
theorem list_add_replacement_claim_false :
    (lA.add txA101 (2 ^ 63)).1 = true ∧
      ¬ Int.ediv (oldA.gasPrice * (100 + ((2 ^ 63 : Nat) : Int))) 100 ≤
          txA101.gasPrice := by
  constructor
  · decide
  · decide

/-! ## Cost sums across the map operations -/

namespace SortedMap

theorem sumCost_append (a b : SortedMap) :
    sumCost (a ++ b) = sumCost a + sumCost b := by
  simp [sumCost]

theorem forwardLoop_sumCost (fuel : Nat) (t : Nat) :
    ∀ m : SortedMap, (keys m).Nodup →
      sumCost (forwardLoop fuel m t).1 =
          sumCost m - sumCostList (forwardLoop fuel m t).2 ∧
        (keys (forwardLoop fuel m t).1).Nodup := by
  induction fuel with
  | zero => intro m hnd; simp [forwardLoop, hnd]
  | succ fuel ih =>
    intro m hnd
    simp only [forwardLoop]
    cases hs : smallest m with
    | none => simp [hnd]
    | some nonce =>
      by_cases hgt : nonce > t
      · simp [hgt, hnd]
      · simp only [if_neg hgt]
        cases hg : get m nonce with
        | none => simp [hnd]
        | some tx =>
          have hnd1 : (keys (removeKey m nonce)).Nodup := nodup_keys_removeKey _ hnd
          have hsum1 := sumCost_removeKey hnd hg
          have := ih (removeKey m nonce) hnd1
          simp only [sumCostList_cons]
          constructor
          · rw [this.1, hsum1]; ring
          · exact this.2

theorem capLoop_sumCost (size : Nat) (t : Nat) :
    ∀ m : SortedMap, (keys m).Nodup →
      sumCost (capLoop size t m).1 =
          sumCost m - sumCostList (capLoop size t m).2 ∧
        (keys (capLoop size t m).1).Nodup := by
  induction size with
  | zero => intro m hnd; simp [capLoop, hnd]
  | succ size ih =>
    intro m hnd
    simp only [capLoop]
    by_cases hgt : size + 1 > t
    · simp only [if_pos hgt]
      cases hs : largest m with
      | none => simp [hnd]
      | some nonce =>
        cases hg : get m nonce with
        | none => simp [hg, hnd]
        | some tx =>
          have hnd1 : (keys (removeKey m nonce)).Nodup := nodup_keys_removeKey _ hnd
          have hsum1 := sumCost_removeKey hnd hg
          have := ih (removeKey m nonce) hnd1
          simp only [hg, sumCostList_cons]
          constructor
          · rw [this.1, hsum1]; ring
          · exact this.2
    · simp [hgt, hnd]

theorem filterOut_sumCost (p : PoolTx → Bool) :
    ∀ m : SortedMap,
      sumCost (filterOut m p).1 = sumCost m - sumCostList (filterOut m p).2 := by
  intro m
  induction m with
  | nil => simp [filterOut]
  | cons e rest ih =>
    simp only [filterOut, List.filter_cons] at ih ⊢
    by_cases hp : p e.2
    · simp only [hp]
      simp only [decide_not, hp] at ih ⊢
      simp [sumCost, sumCostList] at ih ⊢
      omega
    · simp only [decide_not] at ih ⊢
      simp only [Bool.not_eq_true] at hp
      simp [hp, sumCost, sumCostList] at ih ⊢
      omega

theorem filterOut_nodup (p : PoolTx → Bool) (m : SortedMap)
    (hnd : (keys m).Nodup) : (keys (filterOut m p).1).Nodup :=
  nodup_keys_filter _ hnd

theorem readyLoop_sumCost (size : Nat) (threshold : Int) :
    ∀ (m : SortedMap) (s nx : Nat) (total : Int), (keys m).Nodup →
      sumCost (readyLoop size m s nx total threshold).1 =
          sumCost m - sumCostList (readyLoop size m s nx total threshold).2 ∧
        (keys (readyLoop size m s nx total threshold).1).Nodup := by
  induction size with
  | zero => intro m s nx total hnd; simp [readyLoop, hnd]
  | succ size ih =>
    intro m s nx total hnd
    simp only [readyLoop]
    by_cases hc : s = nx ∧ total ≤ threshold
    · simp only [if_pos hc]
      cases hg : get m s with
      | none => simp [hg, hnd]
      | some tx =>
        have hnd1 : (keys (removeKey m s)).Nodup := nodup_keys_removeKey _ hnd
        have hsum1 := sumCost_removeKey hnd hg
        cases hs2 : smallest (removeKey m s) with
        | none =>
          simp only [hg, hs2, sumCostList_cons, sumCostList_nil]
          constructor
          · rw [hsum1]; ring
          · exact hnd1
        | some s2 =>
          cases hg2 : get (removeKey m s) s2 with
          | none =>
            simp only [hg, hs2, hg2, sumCostList_cons, sumCostList_nil]
            constructor
            · rw [hsum1]; ring
            · exact hnd1
          | some tx2 =>
            have := ih (removeKey m s) s2 (nx + 1) (total + tx2.cost) hnd1
            simp only [hg, hs2, hg2, sumCostList_cons]
            constructor
            · rw [this.1, hsum1]; ring
            · exact this.2
    · simp [hc, hnd]

end SortedMap

/-! ## C10: the `totalcost` invariant -/

/-- Data-structure invariant of an account list: distinct nonce keys and
`totalcost` equal to the summed costs of the stored transactions. -/
def TxListInv (l : TxList) : Prop :=
  (SortedMap.keys l.txs).Nodup ∧ l.totalcost = sumCost l.txs

/-- The public mutating operations of `txpool.list`. -/
inductive ListOp where
  | addOp (tx : PoolTx) (priceBump : Nat)
  | forwardOp (threshold : Nat)
  | filterOp (costLimit : Int) (gasLimit : Nat)
  | capOp (threshold : Nat)
  | removeOp (tx : PoolTx)
  | readyOp (start : Nat) (balance : Int)

/-- The list state after one operation. -/
def applyListOp (l : TxList) : ListOp → TxList
  | .addOp tx pb => (l.add tx pb).2.2
  | .forwardOp t => (l.forward t).1
  | .filterOp cL gL => (l.filter cL gL).1
  | .capOp t => (l.capN t).1
  | .removeOp tx => (l.removeTx tx).2.1
  | .readyOp s b => (l.ready s b).1

/-- Precondition: `Remove` is called with the transaction actually stored at
its nonce (the other operations need none). -/
def listOpPre (l : TxList) : ListOp → Prop
  | .removeOp tx => l.txs.get tx.nonce = some tx
  | _ => True

theorem txListInv_add (l : TxList) (tx : PoolTx) (pb : Nat)
    (h : TxListInv l) : TxListInv (l.add tx pb).2.2 := by
  obtain ⟨hnd, hsum⟩ := h
  unfold TxList.add
  cases hg : l.txs.get tx.nonce with
  | none =>
    refine ⟨SortedMap.nodup_keys_put hnd, ?_⟩
    show l.totalcost + tx.cost = sumCost (SortedMap.put l.txs tx)
    rw [SortedMap.put_of_get_none hg, SortedMap.sumCost_append, hsum]
    simp [sumCost]
  | some old =>
    by_cases h1 : tx.gasPrice ≤ old.gasPrice
    · simp only [if_pos h1]; exact ⟨hnd, hsum⟩
    · simp only [if_neg h1]
      by_cases h2 : tx.gasPrice <
          Int.ediv (int64Wrap (100 + int64Wrap (pb : Int)) * old.gasPrice) 100
      · simp only [if_pos h2]; exact ⟨hnd, hsum⟩
      · simp only [if_neg h2]
        refine ⟨SortedMap.nodup_keys_put hnd, ?_⟩
        show TxList.subTotalCost l.totalcost [old] + tx.cost =
          sumCost (SortedMap.put l.txs tx)
        rw [SortedMap.sumCost_put_replace hg, subTotalCost_eq, hsum]
        simp [sumCostList]

theorem txListInv_forward (l : TxList) (t : Nat)
    (h : TxListInv l) : TxListInv (l.forward t).1 := by
  obtain ⟨hnd, hsum⟩ := h
  have hloop := SortedMap.forwardLoop_sumCost l.txs.length t l.txs hnd
  refine ⟨hloop.2, ?_⟩
  show TxList.subTotalCost l.totalcost (SortedMap.forwardLoop l.txs.length l.txs t).2 =
    sumCost (SortedMap.forwardLoop l.txs.length l.txs t).1
  rw [subTotalCost_eq, hsum, hloop.1]

theorem txListInv_filter (l : TxList) (cL : Int) (gL : Nat)
    (h : TxListInv l) : TxListInv (l.filter cL gL).1 := by
  obtain ⟨hnd, hsum⟩ := h
  have h1 := SortedMap.filterOut_sumCost (TxList.filterPred cL gL) l.txs
  have h1n := SortedMap.filterOut_nodup (TxList.filterPred cL gL) l.txs hnd
  unfold TxList.filter
  by_cases hsc : l.costcap ≤ cL ∧ l.gascap ≤ gL
  · simp only [if_pos hsc]; exact ⟨hnd, hsum⟩
  · simp only [if_neg hsc]
    set res := l.txs.filterOut (TxList.filterPred cL gL) with hres
    by_cases hemp : res.2.isEmpty
    · simp only [hemp, if_true]
      refine ⟨h1n, ?_⟩
      show l.totalcost = sumCost res.1
      have hnil : res.2 = [] := List.isEmpty_iff.mp hemp
      rw [hsum, h1, hnil]
      simp
    · simp only [hemp, Bool.false_eq_true, if_false]
      by_cases hstrict : l.strict
      · simp only [hstrict, if_true]
        set inv2 := res.1.filterOut (fun tx => decide (tx.nonce > TxList.lowestNonce res.2))
          with hinv2
        have h2 : sumCost inv2.1 = sumCost res.1 - sumCostList inv2.2 :=
          SortedMap.filterOut_sumCost _ res.1
        have h2n := SortedMap.filterOut_nodup
          (fun tx => decide (tx.nonce > TxList.lowestNonce res.2)) res.1 h1n
        refine ⟨h2n, ?_⟩
        show TxList.subTotalCost (TxList.subTotalCost l.totalcost res.2) inv2.2 =
          sumCost inv2.1
        rw [subTotalCost_eq, subTotalCost_eq, hsum, h2, h1]
      · simp only [hstrict, Bool.false_eq_true, if_false]
        refine ⟨h1n, ?_⟩
        show TxList.subTotalCost (TxList.subTotalCost l.totalcost res.2) [] =
          sumCost res.1
        rw [subTotalCost_eq, subTotalCost_eq, hsum, h1]
        simp

theorem txListInv_cap (l : TxList) (t : Nat)
    (h : TxListInv l) : TxListInv (l.capN t).1 := by
  obtain ⟨hnd, hsum⟩ := h
  unfold TxList.capN SortedMap.cap
  by_cases hle : l.txs.length ≤ t
  · simp only [if_pos hle]
    refine ⟨hnd, ?_⟩
    show TxList.subTotalCost l.totalcost [] = sumCost l.txs
    rw [subTotalCost_eq, hsum]
    simp
  · simp only [if_neg hle]
    have hloop := SortedMap.capLoop_sumCost l.txs.length t l.txs hnd
    refine ⟨hloop.2, ?_⟩
    show TxList.subTotalCost l.totalcost (SortedMap.capLoop l.txs.length t l.txs).2 =
      sumCost (SortedMap.capLoop l.txs.length t l.txs).1
    rw [subTotalCost_eq, hsum, hloop.1]

theorem txListInv_remove (l : TxList) (tx : PoolTx)
    (h : TxListInv l) (hpre : l.txs.get tx.nonce = some tx) :
    TxListInv (l.removeTx tx).2.1 := by
  obtain ⟨hnd, hsum⟩ := h
  unfold TxList.removeTx SortedMap.remove
  dsimp only
  rw [hpre]
  have hnd1 : (SortedMap.keys (SortedMap.removeKey l.txs tx.nonce)).Nodup :=
    SortedMap.nodup_keys_removeKey _ hnd
  have hsum1 := SortedMap.sumCost_removeKey hnd hpre
  by_cases hstrict : l.strict
  · simp only [hstrict, if_true]
    set m1 := SortedMap.removeKey l.txs tx.nonce with hm1
    set inv2 := m1.filterOut (fun t => decide (t.nonce > tx.nonce)) with hinv2
    have h2 : sumCost inv2.1 = sumCost m1 - sumCostList inv2.2 :=
      SortedMap.filterOut_sumCost _ m1
    have h2n := SortedMap.filterOut_nodup
      (fun t => decide (t.nonce > tx.nonce)) m1 hnd1
    refine ⟨h2n, ?_⟩
    show TxList.subTotalCost (TxList.subTotalCost l.totalcost [tx]) inv2.2 =
      sumCost inv2.1
    rw [subTotalCost_eq, subTotalCost_eq, hsum, h2, hsum1]
    simp [sumCostList]
  · simp only [hstrict, Bool.false_eq_true, if_false]
    refine ⟨hnd1, ?_⟩
    show TxList.subTotalCost l.totalcost [tx] =
      sumCost (SortedMap.removeKey l.txs tx.nonce)
    rw [subTotalCost_eq, hsum, hsum1]
    simp [sumCostList]

theorem txListInv_ready (l : TxList) (s : Nat) (b : Int)
    (h : TxListInv l) : TxListInv (l.ready s b).1 := by
  obtain ⟨hnd, hsum⟩ := h
  unfold TxList.ready SortedMap.ready
  by_cases h0 : l.txs.length = 0
  · simp only [if_pos h0]
    refine ⟨hnd, ?_⟩
    show TxList.subTotalCost l.totalcost [] = sumCost l.txs
    rw [subTotalCost_eq, hsum]; simp
  · simp only [if_neg h0]
    cases hs : SortedMap.smallest l.txs with
    | none =>
      refine ⟨hnd, ?_⟩
      show TxList.subTotalCost l.totalcost [] = sumCost l.txs
      rw [subTotalCost_eq, hsum]; simp
    | some sm =>
      by_cases hgt : sm > s
      · simp only [if_pos hgt]
        refine ⟨hnd, ?_⟩
        show TxList.subTotalCost l.totalcost [] = sumCost l.txs
        rw [subTotalCost_eq, hsum]; simp
      · simp only [if_neg hgt]
        cases hg : SortedMap.get l.txs sm with
        | none =>
          refine ⟨hnd, ?_⟩
          show TxList.subTotalCost l.totalcost [] = sumCost l.txs
          rw [subTotalCost_eq, hsum]; simp
        | some tx =>
          have hloop := SortedMap.readyLoop_sumCost l.txs.length b l.txs sm sm tx.cost hnd
          refine ⟨hloop.2, ?_⟩
          show TxList.subTotalCost l.totalcost
              (SortedMap.readyLoop l.txs.length l.txs sm sm tx.cost b).2 =
            sumCost (SortedMap.readyLoop l.txs.length l.txs sm sm tx.cost b).1
          rw [subTotalCost_eq, hsum, hloop.1]

/-- C10: the `totalcost` field of a fresh list equals the (empty) cost sum,
and for every list with distinct nonce keys whose `totalcost` equals the sum
of `Cost()` over its stored transactions, every operation — `Add` (fresh or
replacing), `Forward`, `Filter`, `Cap`, `Remove` (called with the transaction
stored at that nonce), `Ready` — preserves that equality. -/
theorem list_totalcost_invariant :
    (∀ strict, TxListInv (TxList.mk0 strict)) ∧
      ∀ (l : TxList) (op : ListOp),
        TxListInv l → listOpPre l op → TxListInv (applyListOp l op) := by
  constructor
  · intro strict
    exact ⟨List.nodup_nil, rfl⟩
  · intro l op h hpre
    cases op with
    | addOp tx pb => exact txListInv_add l tx pb h
    | forwardOp t => exact txListInv_forward l t h
    | filterOp cL gL => exact txListInv_filter l cL gL h
    | capOp t => exact txListInv_cap l t h
    | removeOp tx => exact txListInv_remove l tx h hpre
    | readyOp s b => exact txListInv_ready l s b h

/-- C10 witness: the invariant holds for the concrete list `lA` and is
preserved by removing its stored transaction. -/
theorem list_totalcost_invariant_witness :
    TxListInv lA ∧ listOpPre lA (ListOp.removeOp oldA) ∧
      TxListInv (applyListOp lA (ListOp.removeOp oldA)) := by
  have hinv : TxListInv lA := ⟨by decide, by decide⟩
  have hpre : listOpPre lA (ListOp.removeOp oldA) := by
    show SortedMap.get lA.txs oldA.nonce = some oldA
    decide
  exact ⟨hinv, hpre, list_totalcost_invariant.2 lA (ListOp.removeOp oldA) hinv hpre⟩

/-! ## C6: the `list.Filter` contract -/

namespace SortedMap

/-- Membership in the removed part of `filterOut`, for maps whose keys agree
with the stored nonces. -/
theorem mem_filterOut_removed {m : SortedMap} {p : PoolTx → Bool} {tx : PoolTx}
    (hkeys : ∀ e ∈ m, e.1 = e.2.nonce) :
    tx ∈ (filterOut m p).2 ↔ (tx.nonce, tx) ∈ m ∧ p tx = true := by
  simp only [filterOut, List.mem_map, List.mem_filter]
  constructor
  · rintro ⟨e, ⟨hem, hp⟩, rfl⟩
    have := hkeys e hem
    constructor
    · cases e with
      | mk k v => simp only at this ⊢; rwa [this] at hem
    · exact hp
  · rintro ⟨hmem, hp⟩
    exact ⟨(tx.nonce, tx), ⟨hmem, hp⟩, rfl⟩

/-- Membership in the kept part of `filterOut`. -/
theorem mem_filterOut_kept {m : SortedMap} {p : PoolTx → Bool} {n : Nat}
    {tx : PoolTx} :
    (n, tx) ∈ (filterOut m p).1 ↔ (n, tx) ∈ m ∧ ¬ p tx = true := by
  simp [filterOut, List.mem_filter]

/-- Keys-agree survives filtering. -/
theorem hkeys_filterOut {m : SortedMap} (p : PoolTx → Bool)
    (hkeys : ∀ e ∈ m, e.1 = e.2.nonce) :
    ∀ e ∈ (filterOut m p).1, e.1 = e.2.nonce :=
  fun e he => hkeys e (List.mem_of_mem_filter he)

end SortedMap

namespace TxList

/-- One step of the lowest-nonce fold never increases the accumulator. -/
theorem lowestStep_le (init : Nat) (tx : PoolTx) :
    (if init > tx.nonce then tx.nonce else init) ≤ init := by
  split_ifs <;> omega

/-- One step of the lowest-nonce fold drops to at most the sampled nonce. -/
theorem lowestStep_le_nonce (init : Nat) (tx : PoolTx) :
    (if init > tx.nonce then tx.nonce else init) ≤ tx.nonce := by
  split_ifs <;> omega

theorem foldl_lowest_le_init (txs : List PoolTx) :
    ∀ init : Nat,
      txs.foldl (fun lowest tx => if lowest > tx.nonce then tx.nonce else lowest) init ≤
        init := by
  induction txs with
  | nil => intro init; simp
  | cons tx rest ih =>
    intro init
    simp only [List.foldl_cons]
    exact le_trans (ih _) (lowestStep_le init tx)

theorem foldl_lowest_le_mem (txs : List PoolTx) :
    ∀ init : Nat, ∀ tx ∈ txs,
      txs.foldl (fun lowest t => if lowest > t.nonce then t.nonce else lowest) init ≤
        tx.nonce := by
  induction txs with
  | nil => intro init tx h; cases h
  | cons t rest ih =>
    intro init tx h
    simp only [List.foldl_cons]
    rcases List.mem_cons.mp h with rfl | h
    · exact le_trans (foldl_lowest_le_init rest _) (lowestStep_le_nonce init tx)
    · exact ih _ tx h

theorem foldl_lowest_attained (txs : List PoolTx) :
    ∀ init : Nat,
      txs.foldl (fun lowest t => if lowest > t.nonce then t.nonce else lowest) init =
          init ∨
        ∃ tx ∈ txs,
          txs.foldl (fun lowest t => if lowest > t.nonce then t.nonce else lowest) init =
            tx.nonce := by
  induction txs with
  | nil => intro init; left; rfl
  | cons t rest ih =>
    intro init
    simp only [List.foldl_cons]
    rcases ih (if init > t.nonce then t.nonce else init) with h | ⟨tx, htx, h⟩
    · by_cases hlt : init > t.nonce
      · right
        refine ⟨t, List.mem_cons_self _ _, ?_⟩
        rw [h, if_pos hlt]
      · left
        rw [h, if_neg hlt]
    · right
      exact ⟨tx, List.mem_cons_of_mem _ htx, h⟩

/-- `lowestNonce` lower-bounds every removed nonce. -/
theorem lowestNonce_le {txs : List PoolTx} {tx : PoolTx} (h : tx ∈ txs) :
    lowestNonce txs ≤ tx.nonce := by
  unfold lowestNonce
  exact foldl_lowest_le_mem txs _ tx h

/-- `lowestNonce` is attained on a nonempty removal set of `uint64` nonces. -/
theorem lowestNonce_attained {txs : List PoolTx} (hne : txs ≠ [])
    (hu : ∀ tx ∈ txs, tx.nonce < 2 ^ 64) :
    ∃ tx ∈ txs, lowestNonce txs = tx.nonce := by
  unfold lowestNonce
  rcases foldl_lowest_attained txs (2 ^ 64 - 1) with h | h
  · cases txs with
    | nil => exact absurd rfl hne
    | cons t rest =>
      refine ⟨t, List.mem_cons_self _ _, ?_⟩
      have h1 := foldl_lowest_le_mem (t :: rest) (2 ^ 64 - 1) t (List.mem_cons_self _ _)
      have h2 := hu t (List.mem_cons_self _ _)
      omega
  · exact h

end TxList

/-- C6: `list.Filter(costLimit, gasLimit)` returns `(nil, nil)` and leaves
the list unchanged when both caps are within the thresholds; otherwise it
lowers the caps to the thresholds, the `removed` result holds exactly the
transactions with cost over `costLimit` or gas limit over `gasLimit`, the
fold-computed lowest removed nonce really is the minimum removed nonce, the
`invalidated` result (in strict mode with a nonempty removal) holds exactly
the surviving transactions whose nonce strictly exceeds it, otherwise no
transaction is invalidated, and the remaining map holds exactly the
transactions passing both checks (and, in the strict cascade case, not
above the lowest removed nonce).  Hypotheses: keys agree with stored nonces
and nonces are `uint64` values, as in Go. -/
theorem list_filter_spec (l : TxList) (cL : Int) (gL : Nat)
    (hkeys : ∀ e ∈ l.txs, e.1 = e.2.nonce)
    (hu64 : ∀ e ∈ l.txs, e.2.nonce < 2 ^ 64) :
    (l.costcap ≤ cL ∧ l.gascap ≤ gL → l.filter cL gL = (l, [], [])) ∧
    (¬(l.costcap ≤ cL ∧ l.gascap ≤ gL) →
      (l.filter cL gL).1.costcap = cL ∧
      (l.filter cL gL).1.gascap = gL ∧
      (∀ tx : PoolTx, tx ∈ (l.filter cL gL).2.1 ↔
        (tx.nonce, tx) ∈ l.txs ∧ (gL < tx.gasLimit ∨ cL < tx.cost)) ∧
      ((l.filter cL gL).2.1 ≠ [] →
        (∃ r ∈ (l.filter cL gL).2.1,
            TxList.lowestNonce ((l.filter cL gL).2.1) = r.nonce) ∧
          ∀ r ∈ (l.filter cL gL).2.1,
            TxList.lowestNonce ((l.filter cL gL).2.1) ≤ r.nonce) ∧
      (l.strict = true → (l.filter cL gL).2.1 ≠ [] →
        ∀ tx : PoolTx, tx ∈ (l.filter cL gL).2.2 ↔
          (tx.nonce, tx) ∈ l.txs ∧ ¬(gL < tx.gasLimit ∨ cL < tx.cost) ∧
            TxList.lowestNonce ((l.filter cL gL).2.1) < tx.nonce) ∧
      (¬(l.strict = true ∧ (l.filter cL gL).2.1 ≠ []) →
        (l.filter cL gL).2.2 = []) ∧
      (∀ (n : Nat) (tx : PoolTx), (n, tx) ∈ (l.filter cL gL).1.txs ↔
        (n, tx) ∈ l.txs ∧ ¬(gL < tx.gasLimit ∨ cL < tx.cost) ∧
          (l.strict = true → (l.filter cL gL).2.1 ≠ [] →
            tx.nonce ≤ TxList.lowestNonce ((l.filter cL gL).2.1)))) := by
  have hpred : ∀ tx : PoolTx,
      TxList.filterPred cL gL tx = true ↔ (gL < tx.gasLimit ∨ cL < tx.cost) := by
    intro tx
    simp [TxList.filterPred]
  constructor
  · intro hsc
    unfold TxList.filter
    rw [if_pos hsc]
  · intro hsc
    unfold TxList.filter
    rw [if_neg hsc]
    set res := l.txs.filterOut (TxList.filterPred cL gL) with hres
    have hrem : ∀ tx : PoolTx, tx ∈ res.2 ↔
        (tx.nonce, tx) ∈ l.txs ∧ (gL < tx.gasLimit ∨ cL < tx.cost) := by
      intro tx
      rw [hres, SortedMap.mem_filterOut_removed hkeys, hpred]
    have hkept : ∀ (n : Nat) (tx : PoolTx), (n, tx) ∈ res.1 ↔
        (n, tx) ∈ l.txs ∧ ¬(gL < tx.gasLimit ∨ cL < tx.cost) := by
      intro n tx
      rw [hres]
      rw [show ((n, tx) ∈ (l.txs.filterOut (TxList.filterPred cL gL)).1 ↔
          (n, tx) ∈ l.txs ∧ ¬ TxList.filterPred cL gL tx = true) from
        SortedMap.mem_filterOut_kept]
      rw [hpred]
    by_cases hemp : res.2.isEmpty
    · have hnil : res.2 = [] := List.isEmpty_iff.mp hemp
      rw [if_pos hemp]
      refine ⟨rfl, rfl, ?_, ?_, ?_, fun _ => rfl, ?_⟩
      · intro tx
        constructor
        · intro htx; cases htx
        · intro hx
          have := (hrem tx).mpr hx
          rw [hnil] at this
          cases this
      · intro hne; exact absurd rfl hne
      · intro _ hne; exact absurd rfl hne
      · intro n tx
        rw [hkept n tx]
        constructor
        · rintro ⟨h1, h2⟩
          exact ⟨h1, h2, fun _ hne => absurd rfl hne⟩
        · rintro ⟨h1, h2, -⟩
          exact ⟨h1, h2⟩
    · rw [if_neg hemp]
      have hne : res.2 ≠ [] := by
        intro hx; rw [hx] at hemp; simp [List.isEmpty] at hemp
      have hu2 : ∀ tx ∈ res.2, tx.nonce < 2 ^ 64 := by
        intro tx htx
        have := (hrem tx).mp htx
        exact hu64 (tx.nonce, tx) this.1
      have hlow : (∃ r ∈ res.2, TxList.lowestNonce res.2 = r.nonce) ∧
          ∀ r ∈ res.2, TxList.lowestNonce res.2 ≤ r.nonce :=
        ⟨TxList.lowestNonce_attained hne hu2, fun r hr => TxList.lowestNonce_le hr⟩
      by_cases hstrict : l.strict = true
      · rw [if_pos hstrict]
        set inv2 := res.1.filterOut (fun tx => decide (tx.nonce > TxList.lowestNonce res.2))
          with hinv2
        have hinvmem : ∀ tx : PoolTx, tx ∈ inv2.2 ↔
            (tx.nonce, tx) ∈ l.txs ∧ ¬(gL < tx.gasLimit ∨ cL < tx.cost) ∧
              TxList.lowestNonce res.2 < tx.nonce := by
          intro tx
          rw [hinv2, SortedMap.mem_filterOut_removed
            (SortedMap.hkeys_filterOut _ (fun e he => hkeys e he))]
          rw [hkept tx.nonce tx]
          simp only [decide_eq_true_eq]
          tauto
        have hinvkept : ∀ (n : Nat) (tx : PoolTx), (n, tx) ∈ inv2.1 ↔
            ((n, tx) ∈ l.txs ∧ ¬(gL < tx.gasLimit ∨ cL < tx.cost)) ∧
              ¬ TxList.lowestNonce res.2 < tx.nonce := by
          intro n tx
          rw [hinv2]
          rw [show ((n, tx) ∈ (res.1.filterOut
              (fun tx => decide (tx.nonce > TxList.lowestNonce res.2))).1 ↔
              (n, tx) ∈ res.1 ∧
                ¬ (decide (tx.nonce > TxList.lowestNonce res.2)) = true) from
            SortedMap.mem_filterOut_kept]
          rw [hkept n tx]
          simp only [decide_eq_true_eq]
        refine ⟨rfl, rfl, hrem, fun _ => hlow, fun _ _ => hinvmem, ?_, ?_⟩
        · intro hcon
          exact absurd ⟨hstrict, hne⟩ hcon
        · intro n tx
          rw [hinvkept n tx]
          constructor
          · rintro ⟨⟨h1, h2⟩, h3⟩
            exact ⟨h1, h2, fun _ _ => Nat.not_lt.mp h3⟩
          · rintro ⟨h1, h2, h3⟩
            exact ⟨⟨h1, h2⟩, Nat.not_lt.mpr (h3 hstrict hne)⟩
      · rw [if_neg hstrict]
        refine ⟨rfl, rfl, hrem, fun _ => hlow, ?_, fun _ => rfl, ?_⟩
        · intro hs; exact absurd hs hstrict
        · intro n tx
          rw [hkept n tx]
          constructor
          · rintro ⟨h1, h2⟩
            exact ⟨h1, h2, fun hs => absurd hs hstrict⟩
          · rintro ⟨h1, h2, -⟩
            exact ⟨h1, h2⟩

/-! ## C7: the `SortedMap.Ready` contract -/

namespace SortedMap

theorem keysMin_mem : ∀ {ks : List Nat} {k : Nat}, keysMin ks = some k → k ∈ ks := by
  intro ks
  induction ks with
  | nil => intro k h; cases h
  | cons x rest ih =>
    intro k h
    simp only [keysMin] at h
    cases hr : keysMin rest with
    | none => rw [hr] at h; cases h; exact List.mem_cons_self _ _
    | some mR =>
      rw [hr] at h
      cases h
      by_cases hle : x ≤ mR
      · rw [min_eq_left hle]; exact List.mem_cons_self _ _
      · rw [min_eq_right (by omega)]
        exact List.mem_cons_of_mem _ (ih hr)

theorem keysMin_le : ∀ {ks : List Nat} {k : Nat}, keysMin ks = some k →
    ∀ x ∈ ks, k ≤ x := by
  intro ks
  induction ks with
  | nil => intro k h; cases h
  | cons y rest ih =>
    intro k h x hx
    simp only [keysMin] at h
    cases hr : keysMin rest with
    | none =>
      rw [hr] at h
      cases h
      have : rest = [] := by
        cases rest with
        | nil => rfl
        | cons a b => simp [keysMin] at hr; cases hx' : keysMin b <;> simp [hx'] at hr
      subst this
      rcases List.mem_cons.mp hx with rfl | hx
      · exact le_refl _
      · cases hx
    | some mR =>
      rw [hr] at h
      cases h
      rcases List.mem_cons.mp hx with rfl | hx
      · exact min_le_left _ _
      · exact le_trans (min_le_right _ _) (ih hr x hx)

theorem keysMin_eq_none : ∀ {ks : List Nat}, keysMin ks = none ↔ ks = [] := by
  intro ks
  cases ks with
  | nil => simp [keysMin]
  | cons x rest =>
    simp only [keysMin]
    cases hr : keysMin rest <;> simp

theorem smallest_mem {m : SortedMap} {s : Nat} (h : smallest m = some s) :
    s ∈ keys m := keysMin_mem h

theorem smallest_le {m : SortedMap} {s : Nat} (h : smallest m = some s) :
    ∀ k ∈ keys m, s ≤ k := keysMin_le h

theorem smallest_eq_none {m : SortedMap} : smallest m = none ↔ m = [] := by
  unfold smallest
  rw [keysMin_eq_none]
  simp [keys]

theorem mem_keys_get {m : SortedMap} {n : Nat} (h : n ∈ keys m) :
    ∃ tx, get m n = some tx := by
  induction m with
  | nil => cases h
  | cons e rest ih =>
    by_cases he : e.1 = n
    · exact ⟨e.2, by simp [get, he]⟩
    · simp only [keys, List.map_cons, List.mem_cons] at h
      rcases h with h | h
      · exact absurd h.symm he
      · obtain ⟨tx, htx⟩ := ih h
        exact ⟨tx, by simp [get, he, htx]⟩

theorem mem_removeKey {m : SortedMap} {n k : Nat} {tx : PoolTx} :
    (k, tx) ∈ removeKey m n ↔ (k, tx) ∈ m ∧ k ≠ n := by
  simp [removeKey, List.mem_filter]

theorem mem_keys_removeKey {m : SortedMap} {n k : Nat} :
    k ∈ keys (removeKey m n) ↔ k ∈ keys m ∧ k ≠ n := by
  simp only [keys, List.mem_map]
  constructor
  · rintro ⟨e, he, rfl⟩
    have := mem_removeKey.mp (show (e.1, e.2) ∈ removeKey m n from he)
    exact ⟨⟨e, this.1, rfl⟩, this.2⟩
  · rintro ⟨⟨e, he, rfl⟩, hne⟩
    exact ⟨e, mem_removeKey.mpr ⟨he, hne⟩, rfl⟩

theorem get_removeKey_ne {m : SortedMap} {n k : Nat} (h : k ≠ n) :
    get (removeKey m n) k = get m k := by
  induction m with
  | nil => rfl
  | cons e rest ih =>
    by_cases he : e.1 = n
    · rw [removeKey_cons_of_eq he, ih]
      have : ¬ e.1 = k := by omega
      simp [get, this]
    · rw [removeKey_cons_of_ne he]
      by_cases hek : e.1 = k
      · simp [get, hek]
      · simp [get, hek, ih]

theorem length_removeKey_of_nodup {m : SortedMap} {n : Nat}
    (hnd : (keys m).Nodup) (h : n ∈ keys m) :
    (removeKey m n).length + 1 = m.length := by
  induction m with
  | nil => cases h
  | cons e rest ih =>
    simp only [keys, List.map_cons, List.nodup_cons] at hnd
    by_cases he : e.1 = n
    · rw [removeKey_cons_of_eq he]
      have : removeKey rest n = rest := by
        apply List.filter_eq_self.mpr
        intro f hf
        have : f.1 ≠ n := fun hfn =>
          hnd.1 (he ▸ hfn ▸ List.mem_map_of_mem Prod.fst hf)
        simpa using this
      rw [this]
      simp
    · rw [removeKey_cons_of_ne he]
      simp only [keys, List.map_cons, List.mem_cons] at h
      rcases h with h | h
      · exact absurd h.symm he
      · have := ih hnd.2 h
        simp [this]

end SortedMap

/-- Run described by the spec for `Ready`: starting at nonce `n`, take the
transactions at consecutive nonces while each is present and the cumulative
cost stays within the budget (stop at the first gap, the first overdraft, or
exhaustion of the fuel, which callers set to the map size). -/
def specReadyRun (m : SortedMap) : Nat → Nat → Int → List PoolTx
  | 0, _, _ => []
  | fuel + 1, n, budget =>
    match SortedMap.get m n with
    | none => []
    | some tx =>
      if tx.cost ≤ budget then tx :: specReadyRun m fuel (n + 1) (budget - tx.cost)
      else []

theorem specReadyRun_removeKey {m : SortedMap} {s : Nat} :
    ∀ (fuel : Nat) (n : Nat) (b : Int), s < n →
      specReadyRun (SortedMap.removeKey m s) fuel n b = specReadyRun m fuel n b := by
  intro fuel
  induction fuel with
  | zero => intro n b _; rfl
  | succ fuel ih =>
    intro n b hs
    simp only [specReadyRun]
    rw [SortedMap.get_removeKey_ne (by omega)]
    cases SortedMap.get m n with
    | none => rfl
    | some tx =>
      by_cases hb : tx.cost ≤ b
      · simp only [if_pos hb]
        rw [ih (n + 1) (b - tx.cost) (by omega)]
      · simp only [if_neg hb]

/-- A `Ready` loop call whose guard fails returns the map unchanged. -/
theorem readyLoop_guard_false (size : Nat) (m : SortedMap) (s nx : Nat)
    (total bal : Int) (h : ¬(s = nx ∧ total ≤ bal)) :
    SortedMap.readyLoop size m s nx total bal = (m, []) := by
  cases size with
  | zero => rfl
  | succ k => simp only [SortedMap.readyLoop, if_neg h]

/-- The `Ready` loop pops exactly the spec run and leaves exactly the entries
at or above the end of the run. -/
theorem readyLoop_spec :
    ∀ (size : Nat) (m : SortedMap) (s : Nat) (total bal : Int) (tx : PoolTx),
      (SortedMap.keys m).Nodup → m.length = size →
      SortedMap.smallest m = some s → SortedMap.get m s = some tx →
      (SortedMap.readyLoop size m s s total bal).2 =
          specReadyRun m size s (bal - total + tx.cost) ∧
        ∀ (n : Nat) (tx' : PoolTx),
          (n, tx') ∈ (SortedMap.readyLoop size m s s total bal).1 ↔
            (n, tx') ∈ m ∧
              s + (SortedMap.readyLoop size m s s total bal).2.length ≤ n := by
  intro size
  induction size with
  | zero =>
    intro m s total bal tx hnd hlen hs hg
    have : m = [] := List.length_eq_zero.mp hlen
    subst this
    cases hg
  | succ size ih =>
    intro m s total bal tx hnd hlen hs hg
    have hguard : tx.cost ≤ bal - total + tx.cost ↔ total ≤ bal := by
      constructor <;> (intro; omega)
    have hallge : ∀ k ∈ SortedMap.keys m, s ≤ k := SortedMap.smallest_le hs
    by_cases hb : total ≤ bal
    case neg =>
      have hloop : SortedMap.readyLoop (size + 1) m s s total bal = (m, []) :=
        readyLoop_guard_false _ _ _ _ _ _ (by rintro ⟨-, h⟩; exact hb h)
      have hspec : specReadyRun m (size + 1) s (bal - total + tx.cost) = [] := by
        simp only [specReadyRun, hg, if_neg (fun h => hb (hguard.mp h))]
      rw [hloop, hspec]
      refine ⟨rfl, ?_⟩
      intro n tx'
      simp only [List.length_nil, Nat.add_zero]
      constructor
      · intro hmem
        exact ⟨hmem, hallge n (List.mem_map_of_mem Prod.fst hmem)⟩
      · rintro ⟨hmem, -⟩
        exact hmem
    case pos =>
      have hsmem : s ∈ SortedMap.keys m := SortedMap.smallest_mem hs
      have hlen1 : (SortedMap.removeKey m s).length = size := by
        have := SortedMap.length_removeKey_of_nodup hnd hsmem
        omega
      have hnd1 : (SortedMap.keys (SortedMap.removeKey m s)).Nodup :=
        SortedMap.nodup_keys_removeKey _ hnd
      have hgtall : ∀ k ∈ SortedMap.keys (SortedMap.removeKey m s), s < k := by
        intro k hk
        have h1 := SortedMap.mem_keys_removeKey.mp hk
        have h2 := hallge k h1.1
        omega
      have hspec1 : specReadyRun m (size + 1) s (bal - total + tx.cost) =
          tx :: specReadyRun m size (s + 1) (bal - total) := by
        simp only [specReadyRun, hg, if_pos (hguard.mpr hb)]
        congr 1
        congr 1
        ring
      cases hs2 : SortedMap.smallest (SortedMap.removeKey m s) with
      | none =>
        have hempty : SortedMap.removeKey m s = [] := SortedMap.smallest_eq_none.mp hs2
        have hloop : SortedMap.readyLoop (size + 1) m s s total bal =
            (SortedMap.removeKey m s, [tx]) := by
          simp only [SortedMap.readyLoop, hg, hs2]
          rw [if_pos (show True ∧ total ≤ bal from ⟨trivial, hb⟩)]
        have hnone : SortedMap.get m (s + 1) = none := by
          cases hgs : SortedMap.get m (s + 1) with
          | none => rfl
          | some t =>
            have hmem := SortedMap.get_eq_some_mem hgs
            have hmem1 : (s + 1, t) ∈ SortedMap.removeKey m s :=
              SortedMap.mem_removeKey.mpr ⟨hmem, by omega⟩
            rw [hempty] at hmem1
            cases hmem1
        have hspec2 : specReadyRun m size (s + 1) (bal - total) = [] := by
          cases size with
          | zero => rfl
          | succ size2 => simp only [specReadyRun, hnone]
        rw [hloop, hspec1, hspec2, hempty]
        refine ⟨rfl, ?_⟩
        intro n tx'
        constructor
        · intro h; cases h
        · rintro ⟨hmem, hge⟩
          have hmem1 : (n, tx') ∈ SortedMap.removeKey m s :=
            SortedMap.mem_removeKey.mpr ⟨hmem, by simp at hge; omega⟩
          rw [hempty] at hmem1
          cases hmem1
      | some s2 =>
        have hs2mem := SortedMap.smallest_mem hs2
        obtain ⟨tx2, hg2⟩ := SortedMap.mem_keys_get hs2mem
        have hs2gt : s < s2 := hgtall s2 hs2mem
        have hloop : SortedMap.readyLoop (size + 1) m s s total bal =
            ((SortedMap.readyLoop size (SortedMap.removeKey m s) s2 (s + 1)
                (total + tx2.cost) bal).1,
              tx :: (SortedMap.readyLoop size (SortedMap.removeKey m s) s2 (s + 1)
                (total + tx2.cost) bal).2) := by
          simp only [SortedMap.readyLoop, hg, hs2, hg2]
          rw [if_pos (show True ∧ total ≤ bal from ⟨trivial, hb⟩)]
        by_cases hnext : s2 = s + 1
        · subst hnext
          have hrec := ih (SortedMap.removeKey m s) (s + 1) (total + tx2.cost) bal tx2
            hnd1 hlen1 hs2 hg2
          have hbudget : bal - (total + tx2.cost) + tx2.cost = bal - total := by ring
          rw [hbudget] at hrec
          have hget1 : SortedMap.get m (s + 1) = some tx2 := by
            rw [← SortedMap.get_removeKey_ne (show s + 1 ≠ s by omega)]
            exact hg2
          have hspec3 : specReadyRun m size (s + 1) (bal - total) =
              specReadyRun (SortedMap.removeKey m s) size (s + 1) (bal - total) :=
            (specReadyRun_removeKey size (s + 1) (bal - total) (by omega)).symm
          rw [hloop, hspec1, hspec3]
          constructor
          · rw [hrec.1]
          · intro n tx'
            simp only [List.length_cons]
            rw [hrec.2 n tx', SortedMap.mem_removeKey]
            constructor
            · rintro ⟨⟨hmem, hne⟩, hge⟩
              exact ⟨hmem, by omega⟩
            · rintro ⟨hmem, hge⟩
              have hlen2 := hrec.1
              exact ⟨⟨hmem, by omega⟩, by omega⟩
        · have hrecfalse : SortedMap.readyLoop size (SortedMap.removeKey m s) s2 (s + 1)
              (total + tx2.cost) bal = (SortedMap.removeKey m s, []) :=
            readyLoop_guard_false _ _ _ _ _ _ (by rintro ⟨h1, -⟩; exact hnext h1)
          have hnone : SortedMap.get m (s + 1) = none := by
            cases hgs : SortedMap.get m (s + 1) with
            | none => rfl
            | some t =>
              have hmem := SortedMap.get_eq_some_mem hgs
              have hk : s + 1 ∈ SortedMap.keys (SortedMap.removeKey m s) :=
                SortedMap.mem_keys_removeKey.mpr
                  ⟨List.mem_map_of_mem Prod.fst hmem, by omega⟩
              have := SortedMap.smallest_le hs2 _ hk
              omega
          have hspec2 : specReadyRun m size (s + 1) (bal - total) = [] := by
            cases size with
            | zero => rfl
            | succ size2 => simp only [specReadyRun, hnone]
          rw [hloop, hrecfalse, hspec1, hspec2]
          refine ⟨rfl, ?_⟩
          intro n tx'
          simp only [List.length_cons, List.length_nil]
          rw [SortedMap.mem_removeKey]
          constructor
          · rintro ⟨hmem, hne⟩
            have := hallge n (List.mem_map_of_mem Prod.fst hmem)
            exact ⟨hmem, by omega⟩
          · rintro ⟨hmem, hge⟩
            exact ⟨hmem, by omega⟩

/-- Transaction at nonce 3, used for the `Ready` self-correction input. -/
def txB : PoolTx := { nonce := 3, gasPrice := 1, gasLimit := 1, cost := 1 }

/-- C7 (amended): `Ready(start, balance)` returns nothing when the map is
empty or its smallest nonce exceeds `start`; otherwise it removes and
returns the contiguous ascending run beginning at the map's smallest nonce
(which may lie below `start`), taking each next transaction while it exists
and the cumulative cost stays within `balance`, and the remaining map holds
exactly the entries at or above the end of the run. -/
theorem sortedMap_ready_spec (m : SortedMap) (start : Nat) (bal : Int)
    (hnd : (SortedMap.keys m).Nodup) :
    (m = [] → SortedMap.ready m start bal = (m, [])) ∧
    (∀ s, SortedMap.smallest m = some s → start < s →
      SortedMap.ready m start bal = (m, [])) ∧
    (∀ s, SortedMap.smallest m = some s → s ≤ start →
      (SortedMap.ready m start bal).2 = specReadyRun m m.length s bal ∧
        ∀ (n : Nat) (tx : PoolTx), (n, tx) ∈ (SortedMap.ready m start bal).1 ↔
          (n, tx) ∈ m ∧ s + (SortedMap.ready m start bal).2.length ≤ n) := by
  refine ⟨?_, ?_, ?_⟩
  · intro hm
    subst hm
    rfl
  · intro s hs hlt
    have hne : m ≠ [] := by
      intro hm
      rw [hm] at hs
      cases hs
    have hlen : ¬ m.length = 0 := fun h => hne (List.length_eq_zero.mp h)
    unfold SortedMap.ready
    rw [if_neg hlen]
    simp only [hs]
    rw [if_pos (by omega : s > start)]
  · intro s hs hle
    have hne : m ≠ [] := by
      intro hm
      rw [hm] at hs
      cases hs
    have hlen : ¬ m.length = 0 := fun h => hne (List.length_eq_zero.mp h)
    obtain ⟨tx, hg⟩ := SortedMap.mem_keys_get (SortedMap.smallest_mem hs)
    have hready : SortedMap.ready m start bal =
        SortedMap.readyLoop m.length m s s tx.cost bal := by
      unfold SortedMap.ready
      rw [if_neg hlen]
      simp only [hs]
      rw [if_neg (by omega : ¬ s > start)]
      simp only [hg]
    have hspec := readyLoop_spec m.length m s tx.cost bal tx hnd rfl hs hg
    have hbal : bal - tx.cost + tx.cost = bal := by ring
    rw [hbal] at hspec
    rw [hready]
    exact hspec

/-- C7 counterexample: on the map `{3 ↦ txB}` with `start = 5`, `Ready`
returns the transaction at nonce 3 — a nonempty run that does not begin at
nonce `start` (there is no entry at nonce 5 at all), contradicting the claim
that the returned run begins at nonce `start`. -/
theorem sortedMap_ready_claim_false :
    (SortedMap.ready [(3, txB)] 5 100).2 = [txB] ∧ txB.nonce ≠ 5 ∧
      SortedMap.get [(3, txB)] 5 = none := by
  refine ⟨?_, ?_, ?_⟩ <;> decide

/-- C7 witness: on the singleton map at nonce 5 with `start = 5`, the run
returned is the spec run from nonce 5. -/
theorem sortedMap_ready_spec_witness :
    (SortedMap.keys [(5, oldA)]).Nodup ∧
      (SortedMap.ready [(5, oldA)] 5 1000).2 = specReadyRun [(5, oldA)] 1 5 1000 :=
  ⟨by decide,
    ((sortedMap_ready_spec [(5, oldA)] 5 1000 (by decide)).2.2 5 rfl
      (by decide)).1⟩

/-- C6 witness: on the concrete list `lA` (costcap 100), filtering with a
cost limit of 50 takes the non-short-circuit path and lowers the cap. -/
theorem list_filter_spec_witness :
    ¬(lA.costcap ≤ 50 ∧ lA.gascap ≤ 21000) ∧ (lA.filter 50 21000).1.costcap = 50 :=
  ⟨by decide,
    ((list_filter_spec lA 50 21000 (by decide) (by decide)).2 (by decide)).1⟩

/-! ## The `pool_instance` layer

`txpool_instance` consumes the struct variant of `types.Transaction`
(src/types/transaction.go): direct fields `TxHash`, `From`, `Nonce`,
`GasLimit`, `GasPrice.Price`, `Value`, `InputCoins`, `OutputCoins`, `To`,
`Data`, `AccessList`, `Validation`, plus the derived `Size()` (JSON
serialization length) and `Validation.GetFrom` (ECDSA recovery).  Hashes and
addresses are embedded as `Nat` (the zero address is `0`); serialization and
signature recovery are outside the pool per the spec, so `size` is a field
and `getFrom` records the recovery outcome (`none` = error).  Go `nil`
slices are `none`; a non-nil slice is `some` of its contents. -/

structure GoTx where
  txHash : Nat
  fromAddr : Nat
  nonce : Nat
  gasLimit : Nat
  price : Int
  value : Int
  inputCoins : Option (List Int)
  outputCoins : Option (List Int)
  toAddr : Nat
  data : List Nat
  accessList : Option (Nat × Nat)
  getFrom : Option Nat
  size : Nat
  deriving DecidableEq, Repr

/-- `txSlotSize = 32 * 1024` (src/unnamed/part_003; §3 of the spec). -/
def txSlotSize : Nat := 32 * 1024

/-- `numSlots(tx) = (tx.Size() + txSlotSize - 1) / txSlotSize`
(src/txpool/pool_instance/lookup.go, lines 246–249). -/
def numSlots (tx : GoTx) : Nat := (tx.size + txSlotSize - 1) / txSlotSize

/-! ### Generic association-map operations (Go `map[common.Hash]*Transaction`) -/

section AssocMap

variable {α : Type}

/-- Go map indexing. -/
def amGet (m : List (Nat × α)) (k : Nat) : Option α :=
  match m with
  | [] => none
  | e :: rest => if e.1 = k then some e.2 else amGet rest k

/-- Go map assignment `m[k] = v` (replace or insert). -/
def amPut (m : List (Nat × α)) (k : Nat) (v : α) : List (Nat × α) :=
  match m with
  | [] => [(k, v)]
  | e :: rest => if e.1 = k then (k, v) :: rest else e :: amPut rest k v

/-- Go `delete(m, k)`. -/
def amDel (m : List (Nat × α)) (k : Nat) : List (Nat × α) :=
  m.filter (fun e => e.1 ≠ k)

/-- Keys of the map. -/
def amKeys (m : List (Nat × α)) : List Nat := m.map Prod.fst

/-- Sum of a weight over the stored values. -/
def amSum (f : α → Int) (m : List (Nat × α)) : Int :=
  (m.map (fun e => f e.2)).sum

@[simp]
theorem amSum_nil (f : α → Int) : amSum f ([] : List (Nat × α)) = 0 := rfl

@[simp]
theorem amSum_cons (f : α → Int) (e : Nat × α) (m : List (Nat × α)) :
    amSum f (e :: m) = f e.2 + amSum f m := rfl

theorem amGet_eq_some_mem {m : List (Nat × α)} {k : Nat} {v : α}
    (h : amGet m k = some v) : (k, v) ∈ m := by
  induction m with
  | nil => cases h
  | cons e rest ih =>
    by_cases he : e.1 = k
    · simp only [amGet, if_pos he] at h
      cases h
      cases e with
      | mk a b =>
        simp only at he
        subst he
        exact List.mem_cons_self _ _
    · simp only [amGet, if_neg he] at h
      exact List.mem_cons_of_mem _ (ih h)

theorem amGet_eq_none_forall {m : List (Nat × α)} {k : Nat}
    (h : amGet m k = none) : ∀ e ∈ m, e.1 ≠ k := by
  induction m with
  | nil => intro e he; cases he
  | cons e rest ih =>
    by_cases he : e.1 = k
    · simp [amGet, if_pos he] at h
    · simp only [amGet, if_neg he] at h
      intro f hf
      rcases List.mem_cons.mp hf with rfl | hf
      · exact he
      · exact ih h f hf

theorem amGet_mem_keys {m : List (Nat × α)} {k : Nat} {v : α}
    (h : amGet m k = some v) : k ∈ amKeys m :=
  List.mem_map_of_mem Prod.fst (amGet_eq_some_mem h)

theorem amDel_of_get_none {m : List (Nat × α)} {k : Nat}
    (h : amGet m k = none) : amDel m k = m := by
  unfold amDel
  exact List.filter_eq_self.mpr (fun e he => by
    simpa using amGet_eq_none_forall h e he)

theorem amDel_cons_of_eq {e : Nat × α} {rest : List (Nat × α)} {k : Nat}
    (he : e.1 = k) : amDel (e :: rest) k = amDel rest k := by
  simp [amDel, List.filter_cons, he]

theorem amDel_cons_of_ne {e : Nat × α} {rest : List (Nat × α)} {k : Nat}
    (he : e.1 ≠ k) : amDel (e :: rest) k = e :: amDel rest k := by
  simp [amDel, List.filter_cons, he]

theorem amSum_del {f : α → Int} {m : List (Nat × α)} {k : Nat} {v : α}
    (hnd : (amKeys m).Nodup) (h : amGet m k = some v) :
    amSum f (amDel m k) = amSum f m - f v := by
  induction m with
  | nil => cases h
  | cons e rest ih =>
    simp only [amKeys, List.map_cons, List.nodup_cons] at hnd
    by_cases he : e.1 = k
    · simp only [amGet, if_pos he] at h
      cases h
      rw [amDel_cons_of_eq he]
      have hrest : amDel rest k = rest := by
        apply List.filter_eq_self.mpr
        intro g hg
        have : g.1 ≠ k := fun hgk =>
          hnd.1 (he ▸ hgk ▸ List.mem_map_of_mem Prod.fst hg)
        simpa using this
      rw [hrest, amSum_cons]
      ring
    · simp only [amGet, if_neg he] at h
      rw [amDel_cons_of_ne he, amSum_cons, amSum_cons, ih hnd.2 h]
      ring

theorem amPut_of_get_none {m : List (Nat × α)} {k : Nat} {v : α}
    (h : amGet m k = none) : amPut m k v = m ++ [(k, v)] := by
  induction m with
  | nil => rfl
  | cons e rest ih =>
    by_cases he : e.1 = k
    · simp [amGet, if_pos he] at h
    · simp only [amGet, if_neg he] at h
      simp only [amPut, if_neg he]
      rw [ih h]
      rfl

theorem amKeys_del_sublist (m : List (Nat × α)) (k : Nat) :
    List.Sublist (amKeys (amDel m k)) (amKeys m) :=
  List.Sublist.map Prod.fst (List.filter_sublist m)

theorem amKeys_del_nodup {m : List (Nat × α)} (k : Nat)
    (h : (amKeys m).Nodup) : (amKeys (amDel m k)).Nodup :=
  (amKeys_del_sublist m k).nodup h

theorem mem_amKeys_del {m : List (Nat × α)} {k j : Nat} :
    j ∈ amKeys (amDel m k) ↔ j ∈ amKeys m ∧ j ≠ k := by
  simp only [amKeys, amDel, List.mem_map]
  constructor
  · rintro ⟨e, he, rfl⟩
    have := List.mem_filter.mp he
    refine ⟨⟨e, this.1, rfl⟩, by simpa using this.2⟩
  · rintro ⟨⟨e, he, rfl⟩, hne⟩
    exact ⟨e, List.mem_filter.mpr ⟨he, by simpa using hne⟩, rfl⟩

theorem mem_amKeys_put {m : List (Nat × α)} {k j : Nat} {v : α} :
    j ∈ amKeys (amPut m k v) ↔ j ∈ amKeys m ∨ j = k := by
  induction m with
  | nil => simp [amPut, amKeys, eq_comm]
  | cons e rest ih =>
    by_cases he : e.1 = k
    · simp only [amPut, if_pos he]
      simp only [amKeys, List.map_cons, List.mem_cons] at ih ⊢
      constructor
      · rintro (rfl | h)
        · right; rfl
        · left; right; exact h
      · rintro (h | h)
        · rcases h with h | h
          · left; omega
          · right; exact h
        · left; exact h.symm ▸ rfl
    · simp only [amPut, if_neg he]
      simp only [amKeys, List.map_cons, List.mem_cons] at ih ⊢
      constructor
      · rintro (rfl | h)
        · left; left; rfl
        · rcases ih.mp h with h | h
          · left; right; exact h
          · right; exact h
      · rintro (h | h)
        · rcases h with h | h
          · left; exact h
          · right; exact ih.mpr (Or.inl h)
        · right; exact ih.mpr (Or.inr h)

end AssocMap

/-! ### `Lookup` (src/txpool/pool_instance/lookup.go) -/

/-- Global hash→transaction store: the `locals` and `remotes` maps plus the
running `slots` counter (Go `int`). -/
structure Lookup where
  slots : Int
  locals : List (Nat × GoTx)
  remotes : List (Nat × GoTx)
  deriving DecidableEq

namespace Lookup

/-- `NewLookup`. -/
def new0 : Lookup := { slots := 0, locals := [], remotes := [] }

/-- `Lookup.GetRemote`. -/
def getRemote (t : Lookup) (h : Nat) : Option GoTx := amGet t.remotes h

/-- `Lookup.GetLocal`. -/
def getLocal (t : Lookup) (h : Nat) : Option GoTx := amGet t.locals h

/-- `Lookup.Slots`. -/
def slotsOf (t : Lookup) : Int := t.slots

/-- `Lookup.Add` (lines 183–195): bump `slots`, then store into the chosen
partition (the metrics gauge update carries no state). -/
def add (t : Lookup) (tx : GoTx) (isLocal : Bool) : Lookup :=
  { slots := t.slots + (numSlots tx : Int)
    locals := if isLocal then amPut t.locals tx.txHash tx else t.locals
    remotes := if isLocal then t.remotes else amPut t.remotes tx.txHash tx }

/-- `Lookup.Remove` (lines 198–215): look up the hash in `locals`, then
`remotes`; if absent, log and return; otherwise subtract the slots and
delete the hash from both maps. -/
def remove (t : Lookup) (h : Nat) : Lookup :=
  match amGet t.locals h with
  | some tx =>
    { slots := t.slots - (numSlots tx : Int)
      locals := amDel t.locals h
      remotes := amDel t.remotes h }
  | none =>
    match amGet t.remotes h with
    | some tx =>
      { slots := t.slots - (numSlots tx : Int)
        locals := amDel t.locals h
        remotes := amDel t.remotes h }
    | none => t

/-- All hashes the store currently tracks. -/
def tracked (t : Lookup) : List Nat := amKeys t.locals ++ amKeys t.remotes

/-- Slot accounting invariant plus the map well-formedness the Go pool
maintains (each hash at most once, and in only one partition). -/
def Inv (t : Lookup) : Prop :=
  t.slots = amSum (fun tx => (numSlots tx : Int)) t.locals +
      amSum (fun tx => (numSlots tx : Int)) t.remotes ∧
    (amKeys t.locals).Nodup ∧ (amKeys t.remotes).Nodup ∧
    ∀ h ∈ amKeys t.locals, h ∉ amKeys t.remotes

end Lookup

/-- The `Lookup` operations exercised by C8. -/
inductive LookupOp where
  | addOp (tx : GoTx) (isLocal : Bool)
  | removeOp (h : Nat)

def applyLookupOp (t : Lookup) : LookupOp → Lookup
  | .addOp tx isLocal => t.add tx isLocal
  | .removeOp h => t.remove h

/-- Hashes of the `Add` calls in a sequence of operations. -/
def addedHashes : List LookupOp → List Nat
  | [] => []
  | LookupOp.addOp tx _ :: rest => tx.txHash :: addedHashes rest
  | LookupOp.removeOp _ :: rest => addedHashes rest

theorem lookup_add_inv (t : Lookup) (tx : GoTx) (isLocal : Bool)
    (hinv : Lookup.Inv t) (hfresh : tx.txHash ∉ Lookup.tracked t) :
    Lookup.Inv (t.add tx isLocal) := by
  obtain ⟨hsum, hndl, hndr, hdisj⟩ := hinv
  have hfl : tx.txHash ∉ amKeys t.locals := fun h =>
    hfresh (List.mem_append_left _ h)
  have hfr : tx.txHash ∉ amKeys t.remotes := fun h =>
    hfresh (List.mem_append_right _ h)
  have hgl : amGet t.locals tx.txHash = none := by
    cases hg : amGet t.locals tx.txHash with
    | none => rfl
    | some v => exact absurd (amGet_mem_keys hg) hfl
  have hgr : amGet t.remotes tx.txHash = none := by
    cases hg : amGet t.remotes tx.txHash with
    | none => rfl
    | some v => exact absurd (amGet_mem_keys hg) hfr
  cases isLocal with
  | true =>
    refine ⟨?_, ?_, hndr, ?_⟩
    · show t.slots + (numSlots tx : Int) =
        amSum _ (amPut t.locals tx.txHash tx) + amSum _ t.remotes
      rw [amPut_of_get_none hgl, hsum]
      simp [amSum]
      ring
    · show (amKeys (amPut t.locals tx.txHash tx)).Nodup
      rw [amPut_of_get_none hgl]
      simp only [amKeys, List.map_append, List.map_cons, List.map_nil]
      rw [List.nodup_append]
      refine ⟨hndl, List.nodup_singleton _, ?_⟩
      intro k hk
      simp only [List.mem_singleton]
      intro hkx
      subst hkx
      exact hfl hk
    · show ∀ h ∈ amKeys (amPut t.locals tx.txHash tx), h ∉ amKeys t.remotes
      intro h hh
      rcases mem_amKeys_put.mp hh with hh | rfl
      · exact hdisj h hh
      · exact hfr
  | false =>
    refine ⟨?_, hndl, ?_, ?_⟩
    · show t.slots + (numSlots tx : Int) =
        amSum _ t.locals + amSum _ (amPut t.remotes tx.txHash tx)
      rw [amPut_of_get_none hgr, hsum]
      simp [amSum]
      ring
    · show (amKeys (amPut t.remotes tx.txHash tx)).Nodup
      rw [amPut_of_get_none hgr]
      simp only [amKeys, List.map_append, List.map_cons, List.map_nil]
      rw [List.nodup_append]
      refine ⟨hndr, List.nodup_singleton _, ?_⟩
      intro k hk
      simp only [List.mem_singleton]
      intro hkx
      subst hkx
      exact hfr hk
    · show ∀ h ∈ amKeys t.locals, h ∉ amKeys (amPut t.remotes tx.txHash tx)
      intro h hh hmem
      rcases mem_amKeys_put.mp hmem with hmem | rfl
      · exact hdisj h hh hmem
      · exact hfl hh

theorem lookup_remove_inv (t : Lookup) (h : Nat) (hinv : Lookup.Inv t) :
    Lookup.Inv (t.remove h) := by
  obtain ⟨hsum, hndl, hndr, hdisj⟩ := hinv
  unfold Lookup.remove
  cases hgl : amGet t.locals h with
  | some tx =>
    have hkr : amGet t.remotes h = none := by
      cases hg : amGet t.remotes h with
      | none => rfl
      | some v =>
        exact absurd (amGet_mem_keys hg) (hdisj h (amGet_mem_keys hgl))
    refine ⟨?_, amKeys_del_nodup _ hndl, amKeys_del_nodup _ hndr, ?_⟩
    · show t.slots - (numSlots tx : Int) =
        amSum _ (amDel t.locals h) + amSum _ (amDel t.remotes h)
      rw [amSum_del hndl hgl, amDel_of_get_none hkr, hsum]
      ring
    · intro k hk
      rw [mem_amKeys_del] at hk
      rw [mem_amKeys_del]
      rintro ⟨hk2, -⟩
      exact hdisj k hk.1 hk2
  | none =>
    cases hgr : amGet t.remotes h with
    | some tx =>
      refine ⟨?_, amKeys_del_nodup _ hndl, amKeys_del_nodup _ hndr, ?_⟩
      · show t.slots - (numSlots tx : Int) =
          amSum _ (amDel t.locals h) + amSum _ (amDel t.remotes h)
        rw [amSum_del hndr hgr, amDel_of_get_none hgl, hsum]
        ring
      · intro k hk
        rw [mem_amKeys_del] at hk
        rw [mem_amKeys_del]
        rintro ⟨hk2, -⟩
        exact hdisj k hk.1 hk2
    | none => exact ⟨hsum, hndl, hndr, hdisj⟩

theorem lookup_fold_inv :
    ∀ (ops : List LookupOp) (t : Lookup) (S : List Nat),
      Lookup.Inv t → (∀ h ∈ Lookup.tracked t, h ∈ S) →
      (S ++ addedHashes ops).Nodup →
      Lookup.Inv (ops.foldl applyLookupOp t) := by
  intro ops
  induction ops with
  | nil => intro t S hinv _ _; exact hinv
  | cons op rest ih =>
    intro t S hinv hsub hnd
    cases op with
    | addOp tx isLocal =>
      simp only [List.foldl_cons, applyLookupOp]
      have hnd2 : ((S ++ [tx.txHash]) ++ addedHashes rest).Nodup := by
        have hperm : List.Perm (S ++ tx.txHash :: addedHashes rest)
            ((S ++ [tx.txHash]) ++ addedHashes rest) := by
          simp only [List.append_assoc, List.singleton_append]
          exact List.Perm.refl _
        exact hperm.nodup (by simpa [addedHashes] using hnd)
      have hfresh : tx.txHash ∉ Lookup.tracked t := by
        intro hmem
        have hS : tx.txHash ∈ S := hsub _ hmem
        have : (S ++ tx.txHash :: addedHashes rest).Nodup := by
          simpa [addedHashes] using hnd
        rw [List.nodup_append] at this
        exact this.2.2 hS (List.mem_cons_self _ _)
      apply ih (t.add tx isLocal) (S ++ [tx.txHash])
        (lookup_add_inv t tx isLocal hinv hfresh) ?_ hnd2
      intro k hk
      unfold Lookup.tracked Lookup.add at hk
      cases isLocal with
      | true =>
        simp only [if_true] at hk
        rcases List.mem_append.mp hk with hk | hk
        · rcases mem_amKeys_put.mp hk with hk | rfl
          · exact List.mem_append_left _ (hsub k (List.mem_append_left _ hk))
          · exact List.mem_append_right _ (List.mem_singleton_self _)
        · exact List.mem_append_left _ (hsub k (List.mem_append_right _ hk))
      | false =>
        simp only [Bool.false_eq_true, if_false] at hk
        rcases List.mem_append.mp hk with hk | hk
        · exact List.mem_append_left _ (hsub k (List.mem_append_left _ hk))
        · rcases mem_amKeys_put.mp hk with hk | rfl
          · exact List.mem_append_left _ (hsub k (List.mem_append_right _ hk))
          · exact List.mem_append_right _ (List.mem_singleton_self _)
    | removeOp h =>
      simp only [List.foldl_cons, applyLookupOp]
      apply ih (t.remove h) S (lookup_remove_inv t h hinv) ?_
        (by simpa [addedHashes] using hnd)
      intro k hk
      apply hsub
      unfold Lookup.tracked Lookup.remove at hk
      unfold Lookup.tracked
      cases hgl : amGet t.locals h with
      | some tx =>
        rw [hgl] at hk
        simp only at hk
        rcases List.mem_append.mp hk with hk | hk
        · exact List.mem_append_left _ (mem_amKeys_del.mp hk).1
        · exact List.mem_append_right _ (mem_amKeys_del.mp hk).1
      | none =>
        rw [hgl] at hk
        cases hgr : amGet t.remotes h with
        | some tx =>
          rw [hgr] at hk
          simp only at hk
          rcases List.mem_append.mp hk with hk | hk
          · exact List.mem_append_left _ (mem_amKeys_del.mp hk).1
          · exact List.mem_append_right _ (mem_amKeys_del.mp hk).1
        | none =>
          rw [hgr] at hk
          exact hk

/-- C8: starting from an empty `Lookup`, after any sequence of `Add` calls
with pairwise distinct transaction hashes interleaved with arbitrary
`Remove` calls, `Slots()` equals the sum of `numSlots(tx)` over every
transaction still tracked (locals and remotes together); and `numSlots` is
the ceiling division `ceil(Size() / 32768)`. -/
theorem lookup_slots_invariant (ops : List LookupOp)
    (hdist : (addedHashes ops).Nodup) :
    Lookup.slotsOf (ops.foldl applyLookupOp Lookup.new0) =
        amSum (fun tx => (numSlots tx : Int))
            (ops.foldl applyLookupOp Lookup.new0).locals +
          amSum (fun tx => (numSlots tx : Int))
            (ops.foldl applyLookupOp Lookup.new0).remotes ∧
      ∀ tx : GoTx, numSlots tx * 32768 < tx.size + 32768 ∧
        tx.size ≤ numSlots tx * 32768 := by
  constructor
  · have := lookup_fold_inv ops Lookup.new0 [] ⟨rfl, List.nodup_nil, List.nodup_nil,
      by intro h hh; cases hh⟩ (by intro h hh; cases hh) (by simpa using hdist)
    exact this.1
  · intro tx
    unfold numSlots txSlotSize
    omega

/-- Helper to build concrete struct transactions. -/
def mkGoTx (h : Nat) (price : Int) (nonce : Nat) (size : Nat) : GoTx :=
  { txHash := h, fromAddr := 0, nonce := nonce, gasLimit := 0, price := price,
    value := 0, inputCoins := none, outputCoins := none, toAddr := 0, data := [],
    accessList := none, getFrom := none, size := size }

/-- One-slot transaction with hash 1. -/
def gtxA : GoTx := mkGoTx 1 10 0 100

/-- Two-slot transaction with hash 2. -/
def gtxB : GoTx := mkGoTx 2 20 1 40000

/-- C8 witness: adding two distinct-hash transactions and removing one keeps
the slot count equal to the tracked sum. -/
theorem lookup_slots_invariant_witness :
    (addedHashes [LookupOp.addOp gtxA true, LookupOp.addOp gtxB false,
        LookupOp.removeOp gtxA.txHash]).Nodup ∧
      Lookup.slotsOf
          ([LookupOp.addOp gtxA true, LookupOp.addOp gtxB false,
              LookupOp.removeOp gtxA.txHash].foldl applyLookupOp Lookup.new0) =
        amSum (fun tx => (numSlots tx : Int))
            ([LookupOp.addOp gtxA true, LookupOp.addOp gtxB false,
                LookupOp.removeOp gtxA.txHash].foldl applyLookupOp Lookup.new0).locals +
          amSum (fun tx => (numSlots tx : Int))
            ([LookupOp.addOp gtxA true, LookupOp.addOp gtxB false,
                LookupOp.removeOp gtxA.txHash].foldl applyLookupOp Lookup.new0).remotes :=
  ⟨by decide,
    (lookup_slots_invariant _ (by decide)).1⟩

/-! ### `PricedList` (src/txpool/pool_instance/priced_list.go)

Go's `container/heap` over `priceHeap.Less` is modelled by keeping the
slice sorted under the `Less`-induced total preorder: `heap.Push` is
`List.orderedInsert`, `heap.Pop` takes the head, `heap.Init` is
`List.insertionSort`.  Every observable of the Go heap used by this file —
`list[0]` is a least element, `Pop` removes a least element, `Push`/`Init`
preserve the element multiset — holds of this model. -/

/-- `urgentRatio` (priced_list.go, line 76). -/
def urgentRatio : Nat := 4

/-- `floatingRatio` (priced_list.go, line 77). -/
def floatingRatio : Nat := 1

/-- The total preorder induced by `priceHeap.Less`: ascending gas price,
ties broken by the higher nonce first (`cmp` ignores `baseFee`: it compares
`GasPrice.Price` directly). -/
def heapLE (a b : GoTx) : Prop :=
  a.price < b.price ∨ (a.price = b.price ∧ b.nonce ≤ a.nonce)

instance : DecidableRel heapLE := fun a b => by
  unfold heapLE
  infer_instance

theorem heapLE_total : ∀ a b : GoTx, heapLE a b ∨ heapLE b a := by
  intro a b
  unfold heapLE
  rcases lt_trichotomy a.price b.price with h | h | h
  · left; left; exact h
  · rcases Nat.le_total b.nonce a.nonce with hn | hn
    · left; right; exact ⟨h, hn⟩
    · right; right; exact ⟨h.symm, hn⟩
  · right; left; exact h

theorem heapLE_trans : ∀ a b c : GoTx, heapLE a b → heapLE b c → heapLE a c := by
  intro a b c hab hbc
  unfold heapLE at *
  rcases hab with h | ⟨h1, h2⟩ <;> rcases hbc with g | ⟨g1, g2⟩
  · left; omega
  · left; omega
  · left; omega
  · right; exact ⟨by omega, by omega⟩

instance : IsTotal GoTx heapLE := ⟨heapLE_total⟩

instance : IsTrans GoTx heapLE := ⟨heapLE_trans⟩

theorem heapLE_price {a b : GoTx} (h : heapLE a b) : a.price ≤ b.price := by
  rcases h with h | ⟨h, -⟩ <;> omega

/-- `heap.Push`. -/
def heapPush (l : List GoTx) (tx : GoTx) : List GoTx :=
  List.orderedInsert heapLE tx l

/-- `heap.Init`. -/
def heapInit (l : List GoTx) : List GoTx :=
  List.insertionSort heapLE l

/-- `PricedList`: the stale counter, the urgent heap and its base fee, and
the floating heap.  (`all` is the `Lookup` the heaps are checked against;
the functions below take it as a parameter, mirroring the `l.all` pointer;
`cmp` never reads `baseFee`, which the field records nonetheless.) -/
structure PricedList where
  stales : Int
  urgentBaseFee : Option Int
  urgent : List GoTx
  floating : List GoTx
  deriving DecidableEq

/-- The empty priced list (`NewPricedList`). -/
def pricedNew : PricedList :=
  { stales := 0, urgentBaseFee := none, urgent := [], floating := [] }

/-- `PricedList.Reheap` (lines 185–209): rebuild urgent from the remote
partition (the `Range` over the Go map is the association-list order),
`heap.Init` it, then pop `len * floatingRatio / (urgentRatio + floatingRatio)`
minima into floating and `heap.Init` that. -/
def pricedReheap (all : Lookup) (pl : PricedList) : PricedList :=
  let urgent1 := heapInit (all.remotes.map Prod.snd)
  let floatingCount := urgent1.length * floatingRatio / (urgentRatio + floatingRatio)
  { pl with
    stales := 0
    urgent := urgent1.drop floatingCount
    floating := heapInit (urgent1.take floatingCount) }

/-- `PricedList.SetBaseFee` (lines 213–216): store the fee as the urgent
ordering key and trigger a `Reheap`. -/
def pricedSetBaseFee (all : Lookup) (pl : PricedList) (fee : Int) : PricedList :=
  pricedReheap all { pl with urgentBaseFee := some fee }

/-- Modelled from the spec: the effective tip of a transaction given a base
fee.  The transaction type carries a single gas price, so the effective tip
is `price - baseFee` and its ordering coincides with the raw price order. -/
def specEffectiveTip (tx : GoTx) (baseFee : Int) : Int := tx.price - baseFee

/-- C5 (amended): after `SetBaseFee(fee)`, the top of the urgent heap has
the lowest effective tip among the transactions remaining in the urgent
heap; and when the pool tracks fewer than `urgentRatio + floatingRatio = 5`
remote transactions the floating heap is empty, so the top is the minimum
over every tracked remote.  (With five or more remotes, `Reheap` moves the
cheapest fifth into the floating heap, so the global claim fails — see the
counterexample.) -/
theorem priced_setBaseFee_spec (all : Lookup) (pl : PricedList) (fee : Int) :
    (∀ hd, (pricedSetBaseFee all pl fee).urgent.head? = some hd →
      ∀ a ∈ (pricedSetBaseFee all pl fee).urgent,
        specEffectiveTip hd fee ≤ specEffectiveTip a fee) ∧
    (all.remotes.length < urgentRatio + floatingRatio →
      (pricedSetBaseFee all pl fee).floating = [] ∧
      ∀ hd, (pricedSetBaseFee all pl fee).urgent.head? = some hd →
        ∀ e ∈ all.remotes, specEffectiveTip hd fee ≤ specEffectiveTip e.2 fee) := by
  have hsorted : List.Sorted heapLE (heapInit (all.remotes.map Prod.snd)) :=
    List.sorted_insertionSort heapLE _
  have hlen : (heapInit (all.remotes.map Prod.snd)).length = all.remotes.length := by
    unfold heapInit
    rw [(List.perm_insertionSort heapLE _).length_eq, List.length_map]
  constructor
  · intro hd hhd a ha
    unfold pricedSetBaseFee pricedReheap at hhd ha
    simp only at hhd ha
    have hsorted2 : List.Sorted heapLE
        ((heapInit (all.remotes.map Prod.snd)).drop
          ((heapInit (all.remotes.map Prod.snd)).length * floatingRatio /
            (urgentRatio + floatingRatio))) :=
      hsorted.sublist (List.drop_sublist _ _)
    set l2 := (heapInit (all.remotes.map Prod.snd)).drop
      ((heapInit (all.remotes.map Prod.snd)).length * floatingRatio /
        (urgentRatio + floatingRatio)) with hl2
    cases hcase : l2 with
    | nil => rw [hcase] at hhd; cases hhd
    | cons x rest =>
      rw [hcase] at hhd ha
      simp only [List.head?] at hhd
      cases hhd
      rcases List.mem_cons.mp ha with rfl | ha
      · exact le_refl _
      · have hle : heapLE hd a := by
          rw [hcase] at hsorted2
          exact (List.sorted_cons.mp hsorted2).1 a ha
        have := heapLE_price hle
        unfold specEffectiveTip
        omega
  · intro hsmall
    have hfc : (heapInit (all.remotes.map Prod.snd)).length * floatingRatio /
        (urgentRatio + floatingRatio) = 0 := by
      rw [hlen]
      unfold urgentRatio floatingRatio at hsmall ⊢
      omega
    constructor
    · unfold pricedSetBaseFee pricedReheap
      simp only [hfc, List.take_zero]
      rfl
    · intro hd hhd e he
      unfold pricedSetBaseFee pricedReheap at hhd
      simp only [hfc, List.drop_zero] at hhd
      have hmem : e.2 ∈ heapInit (all.remotes.map Prod.snd) :=
        (List.perm_insertionSort heapLE _).symm.subset
          (List.mem_map_of_mem Prod.snd he)
      cases hcase : heapInit (all.remotes.map Prod.snd) with
      | nil => rw [hcase] at hmem; cases hmem
      | cons x rest =>
        rw [hcase] at hhd hmem
        simp only [List.head?] at hhd
        cases hhd
        rcases List.mem_cons.mp hmem with hx | hmem
        · rw [hx]
        · have hle : heapLE hd e.2 := by
            rw [hcase] at hsorted
            exact (List.sorted_cons.mp hsorted).1 _ hmem
          have := heapLE_price hle
          unfold specEffectiveTip
          omega

/-- The five-remote `Lookup` used by the C5 counterexample: remote
transactions with prices 1–5. -/
def lkC5 : Lookup :=
  { slots := 5, locals := [],
    remotes := [(1, mkGoTx 1 1 0 1), (2, mkGoTx 2 2 0 1), (3, mkGoTx 3 3 0 1),
      (4, mkGoTx 4 4 0 1), (5, mkGoTx 5 5 0 1)] }

/-- C5 counterexample: with five tracked remotes (prices 1–5),
`SetBaseFee(0)` reheaps and moves the cheapest transaction (price 1) into
the floating heap, so the urgent top (price 2) does not have the lowest
effective tip among the tracked remotes — the claim as stated is false. -/
theorem priced_setBaseFee_claim_false :
    (pricedSetBaseFee lkC5 pricedNew 0).urgent.head? = some (mkGoTx 2 2 0 1) ∧
      mkGoTx 1 1 0 1 ∈ lkC5.remotes.map Prod.snd ∧
      specEffectiveTip (mkGoTx 1 1 0 1) 0 <
        specEffectiveTip (mkGoTx 2 2 0 1) 0 := by
  refine ⟨?_, ?_, ?_⟩ <;> decide

/-- C5 witness: with a single remote, `SetBaseFee` leaves floating empty
and the urgent top minimizes the effective tip over all remotes. -/
theorem priced_setBaseFee_spec_witness :
    ({ slots := 1, locals := [], remotes := [(1, gtxA)] } : Lookup).remotes.length <
        urgentRatio + floatingRatio ∧
      (pricedSetBaseFee { slots := 1, locals := [], remotes := [(1, gtxA)] }
        pricedNew 7).floating = [] :=
  ⟨by decide,
    ((priced_setBaseFee_spec { slots := 1, locals := [], remotes := [(1, gtxA)] }
      pricedNew 7).2 (by decide)).1⟩

/-- `PricedList.underpricedFor` (lines 121–139): pop stale entries off the
heap top (decrementing the stale counter), answer false on an empty heap,
otherwise compare the top against the candidate (`cmp(h.list[0], tx) >= 0`).
Returns `(answer, heap after cleanup, stale counter)`. -/
def underpricedFor (all : Lookup) (tx : GoTx) :
    List GoTx → Int → Bool × List GoTx × Int
  | [], stales => (false, [], stales)
  | head :: rest, stales =>
    if (all.getRemote head.txHash).isNone then
      underpricedFor all tx rest (stales - 1)
    else
      (decide (tx.price ≤ head.price), head :: rest, stales)

/-- `PricedList.Underpriced` (lines 111–117):
`(underpricedFor(urgent) || len(urgent) == 0) && (underpricedFor(floating)
|| len(floating) == 0) && (len(urgent) != 0 || len(floating) != 0)`, the
lengths being read after the respective cleanups; `&&`/`||` short-circuit,
which can skip the floating cleanup but never changes the returned value. -/
def pricedUnderpriced (all : Lookup) (pl : PricedList) (tx : GoTx) :
    Bool × PricedList :=
  let r1 := underpricedFor all tx pl.urgent pl.stales
  if r1.1 || r1.2.1.isEmpty then
    let r2 := underpricedFor all tx pl.floating r1.2.2
    if r2.1 || r2.2.1.isEmpty then
      (!r1.2.1.isEmpty || !r2.2.1.isEmpty,
        { pl with stales := r2.2.2, urgent := r1.2.1, floating := r2.2.1 })
    else (false, { pl with stales := r2.2.2, urgent := r1.2.1, floating := r2.2.1 })
  else (false, { pl with stales := r1.2.2, urgent := r1.2.1 })

theorem underpricedFor_spec (all : Lookup) (tx : GoTx) :
    ∀ (h : List GoTx) (st : Int), List.Sorted heapLE h →
      (underpricedFor all tx h st).2.1 =
          h.dropWhile (fun a => (all.getRemote a.txHash).isNone) ∧
        ((underpricedFor all tx h st).1 = true ↔
          (∃ a ∈ h, all.getRemote a.txHash ≠ none) ∧
            ∀ a ∈ h, all.getRemote a.txHash ≠ none → tx.price ≤ a.price) := by
  intro h
  induction h with
  | nil =>
    intro st _
    refine ⟨rfl, ?_⟩
    simp [underpricedFor]
  | cons head rest ih =>
    intro st hsorted
    have hsr : List.Sorted heapLE rest := (List.sorted_cons.mp hsorted).2
    by_cases hstale : (all.getRemote head.txHash).isNone = true
    · have hhead : all.getRemote head.txHash = none :=
        Option.isNone_iff_eq_none.mp hstale
      simp only [underpricedFor, if_pos hstale]
      have hrec := ih (st - 1) hsr
      refine ⟨?_, ?_⟩
      · rw [hrec.1, List.dropWhile_cons_of_pos (by simpa using hstale)]
      · rw [hrec.2]
        constructor
        · rintro ⟨⟨a, ha, hlive⟩, hall⟩
          refine ⟨⟨a, List.mem_cons_of_mem _ ha, hlive⟩, ?_⟩
          intro b hb hliveb
          rcases List.mem_cons.mp hb with rfl | hb
          · exact absurd hhead hliveb
          · exact hall b hb hliveb
        · rintro ⟨⟨a, ha, hlive⟩, hall⟩
          rcases List.mem_cons.mp ha with rfl | ha
          · exact absurd hhead hlive
          · exact ⟨⟨a, ha, hlive⟩,
              fun b hb hliveb => hall b (List.mem_cons_of_mem _ hb) hliveb⟩
    · have hhead : all.getRemote head.txHash ≠ none := by
        intro hn
        exact hstale (by rw [hn]; rfl)
      simp only [underpricedFor, if_neg hstale]
      refine ⟨?_, ?_⟩
      · rw [List.dropWhile_cons_of_neg (by simpa using hstale)]
      · simp only [decide_eq_true_eq]
        constructor
        · intro hle
          refine ⟨⟨head, List.mem_cons_self _ _, hhead⟩, ?_⟩
          intro a ha hlive
          rcases List.mem_cons.mp ha with rfl | ha
          · exact hle
          · have hle2 : heapLE head a := (List.sorted_cons.mp hsorted).1 a ha
            have := heapLE_price hle2
            omega
        · rintro ⟨-, hall⟩
          exact hall head (List.mem_cons_self _ _) hhead

/-- C3: `Underpriced(tx)` returns true iff some heap holds a live remote
transaction and `tx` is not strictly better (higher gas price) than every
live remote in the urgent heap and every live remote in the floating heap;
a heap with no live remote is skipped in the comparison, and when both
heaps hold no live remote the answer is false.  Hypotheses: the heaps are
heap-ordered (sorted under `Less`). -/
theorem priced_underpriced_spec (all : Lookup) (pl : PricedList) (tx : GoTx)
    (hu : List.Sorted heapLE pl.urgent) (hf : List.Sorted heapLE pl.floating) :
    ((pricedUnderpriced all pl tx).1 = true ↔
      ((∃ a ∈ pl.urgent, all.getRemote a.txHash ≠ none) ∨
        ∃ a ∈ pl.floating, all.getRemote a.txHash ≠ none) ∧
      (∀ a ∈ pl.urgent, all.getRemote a.txHash ≠ none → tx.price ≤ a.price) ∧
      (∀ a ∈ pl.floating, all.getRemote a.txHash ≠ none → tx.price ≤ a.price)) := by
  have h1 := underpricedFor_spec all tx pl.urgent pl.stales hu
  have h2 := underpricedFor_spec all tx pl.floating
    (underpricedFor all tx pl.urgent pl.stales).2.2 hf
  set r1 := underpricedFor all tx pl.urgent pl.stales with hr1
  set r2 := underpricedFor all tx pl.floating r1.2.2 with hr2
  have he1 : r1.2.1.isEmpty = true ↔
      ¬ ∃ a ∈ pl.urgent, all.getRemote a.txHash ≠ none := by
    rw [List.isEmpty_iff, h1.1, List.dropWhile_eq_nil_iff]
    constructor
    · intro hall
      rintro ⟨a, ha, hlive⟩
      exact hlive (Option.isNone_iff_eq_none.mp (hall a ha))
    · intro hnone a ha
      by_cases hl : all.getRemote a.txHash = none
      · rw [hl]; rfl
      · exact absurd ⟨a, ha, hl⟩ hnone
  have he2 : r2.2.1.isEmpty = true ↔
      ¬ ∃ a ∈ pl.floating, all.getRemote a.txHash ≠ none := by
    rw [List.isEmpty_iff, h2.1, List.dropWhile_eq_nil_iff]
    constructor
    · intro hall
      rintro ⟨a, ha, hlive⟩
      exact hlive (Option.isNone_iff_eq_none.mp (hall a ha))
    · intro hnone a ha
      by_cases hl : all.getRemote a.txHash = none
      · rw [hl]; rfl
      · exact absurd ⟨a, ha, hl⟩ hnone
  have hvacu : (¬ ∃ a ∈ pl.urgent, all.getRemote a.txHash ≠ none) →
      ∀ a ∈ pl.urgent, all.getRemote a.txHash ≠ none → tx.price ≤ a.price :=
    fun hn a ha hl => absurd ⟨a, ha, hl⟩ hn
  have hvacf : (¬ ∃ a ∈ pl.floating, all.getRemote a.txHash ≠ none) →
      ∀ a ∈ pl.floating, all.getRemote a.txHash ≠ none → tx.price ≤ a.price :=
    fun hn a ha hl => absurd ⟨a, ha, hl⟩ hn
  unfold pricedUnderpriced
  dsimp only
  rw [← hr1, ← hr2]
  by_cases hc1 : (r1.1 || r1.2.1.isEmpty) = true
  · rw [if_pos hc1]
    by_cases hc2 : (r2.1 || r2.2.1.isEmpty) = true
    · rw [if_pos hc2]
      simp only [Bool.or_eq_true, Bool.not_eq_true ] at hc1 hc2 ⊢
      simp only [Bool.or_eq_true, Bool.not_eq_eq_eq_not, Bool.not_true,
        List.isEmpty_eq_false]
      constructor
      · rintro (hne1 | hne2)
        · have hLu : ∃ a ∈ pl.urgent, all.getRemote a.txHash ≠ none := by
            by_contra hn
            rw [← he1] at hn
            simp [List.isEmpty_iff] at hn
            exact hne1 (by simpa [List.isEmpty_iff] using hn)
          have hAu : ∀ a ∈ pl.urgent, all.getRemote a.txHash ≠ none →
              tx.price ≤ a.price := by
            rcases hc1 with hb | hemp
            · exact (h1.2.mp hb).2
            · exact hvacu (he1.mp hemp)
          have hAf : ∀ a ∈ pl.floating, all.getRemote a.txHash ≠ none →
              tx.price ≤ a.price := by
            rcases hc2 with hb | hemp
            · exact (h2.2.mp hb).2
            · exact hvacf (he2.mp hemp)
          exact ⟨Or.inl hLu, hAu, hAf⟩
        · have hLf : ∃ a ∈ pl.floating, all.getRemote a.txHash ≠ none := by
            by_contra hn
            rw [← he2] at hn
            exact hne2 (by simpa [List.isEmpty_iff] using hn)
          have hAu : ∀ a ∈ pl.urgent, all.getRemote a.txHash ≠ none →
              tx.price ≤ a.price := by
            rcases hc1 with hb | hemp
            · exact (h1.2.mp hb).2
            · exact hvacu (he1.mp hemp)
          have hAf : ∀ a ∈ pl.floating, all.getRemote a.txHash ≠ none →
              tx.price ≤ a.price := by
            rcases hc2 with hb | hemp
            · exact (h2.2.mp hb).2
            · exact hvacf (he2.mp hemp)
          exact ⟨Or.inr hLf, hAu, hAf⟩
      · rintro ⟨hLuf, hAu, hAf⟩
        rcases hLuf with hLu | hLf
        · left
          intro hemp
          exact (he1.mp (by simpa [List.isEmpty_iff] using hemp)) hLu
        · right
          intro hemp
          exact (he2.mp (by simpa [List.isEmpty_iff] using hemp)) hLf
    · rw [if_neg hc2]
      simp only [Bool.or_eq_true, not_or, Bool.not_eq_true] at hc2
      have hLf : ∃ a ∈ pl.floating, all.getRemote a.txHash ≠ none := by
        by_contra hn
        exact absurd (he2.mpr hn) (by simp [hc2.2])
      have hnAf : ¬ ∀ a ∈ pl.floating, all.getRemote a.txHash ≠ none →
          tx.price ≤ a.price := by
        intro hAf
        have : r2.1 = true := h2.2.mpr ⟨hLf, hAf⟩
        rw [this] at hc2
        exact nomatch hc2.1
      constructor
      · intro h; cases h
      · rintro ⟨-, -, hAf⟩
        exact absurd hAf hnAf
  · rw [if_neg hc1]
    simp only [Bool.or_eq_true, not_or, Bool.not_eq_true] at hc1
    have hLu : ∃ a ∈ pl.urgent, all.getRemote a.txHash ≠ none := by
      by_contra hn
      exact absurd (he1.mpr hn) (by simp [hc1.2])
    have hnAu : ¬ ∀ a ∈ pl.urgent, all.getRemote a.txHash ≠ none →
        tx.price ≤ a.price := by
      intro hAu
      have : r1.1 = true := h1.2.mpr ⟨hLu, hAu⟩
      rw [this] at hc1
      exact nomatch hc1.1
    constructor
    · intro h; cases h
    · rintro ⟨-, hAu, -⟩
      exact absurd hAu hnAu

/-- C3 witness: with one live remote of price 10 in the urgent heap, a
price-5 candidate is underpriced. -/
theorem priced_underpriced_spec_witness :
    List.Sorted heapLE [gtxA] ∧
      (pricedUnderpriced { slots := 1, locals := [], remotes := [(1, gtxA)] }
        { stales := 0, urgentBaseFee := none, urgent := [gtxA], floating := [] }
        (mkGoTx 9 5 0 1)).1 = true :=
  ⟨by decide,
    (priced_underpriced_spec { slots := 1, locals := [], remotes := [(1, gtxA)] }
      { stales := 0, urgentBaseFee := none, urgent := [gtxA], floating := [] }
      (mkGoTx 9 5 0 1) (by decide) (by decide)).mpr (by decide)⟩

/-- Result of the `Discard` loop: the collected drops, the two heaps, the
stale counter, and the remaining slot deficit. -/
structure DiscardRes where
  drop : List GoTx
  urgent : List GoTx
  floating : List GoTx
  stales : Int
  slots : Int
  deriving DecidableEq

/-- The loop of `PricedList.Discard` (lines 148–173).  While `slots > 0`:
if `|urgent|·floatingRatio > |floating|·urgentRatio` pop the urgent top
(dropping it if stale, else demoting it to floating), otherwise pop the
floating top (dropping it if stale, else collecting it and decrementing
`slots` by its slot count), stopping when both heaps are exhausted.  The
fuel counter `5·|urgent| + |floating|` plays Go's implicit termination
argument: every iteration lowers that measure by at least one while using
one unit of fuel, and the loop can only exhaust the measure by emptying
both heaps, which is exactly the loop's own break condition — so this much
fuel never runs out before the loop ends. -/
def discardLoop (all : Lookup) :
    Nat → Int → List GoTx → List GoTx → List GoTx → Int → DiscardRes
  | 0, slots, u, f, drop, stales => ⟨drop, u, f, stales, slots⟩
  | fuel + 1, slots, u, f, drop, stales =>
    if 0 < slots then
      if u.length * floatingRatio > f.length * urgentRatio then
        match u with
        | [] => ⟨drop, u, f, stales, slots⟩
        | tx :: u2 =>
          if (all.getRemote tx.txHash).isNone then
            discardLoop all fuel slots u2 f drop (stales - 1)
          else
            discardLoop all fuel slots u2 (heapPush f tx) drop stales
      else
        match f with
        | [] => ⟨drop, u, f, stales, slots⟩
        | tx :: f2 =>
          if (all.getRemote tx.txHash).isNone then
            discardLoop all fuel slots u f2 drop (stales - 1)
          else
            discardLoop all fuel (slots - (numSlots tx : Int)) u f2
              (drop ++ [tx]) stales
    else ⟨drop, u, f, stales, slots⟩

/-- `PricedList.Discard` (lines 146–182): run the loop; if slots are still
needed and `force` is unset, push the collected drops back onto the urgent
heap and fail with `(nil, false)`; otherwise return the drops. -/
def pricedDiscard (all : Lookup) (pl : PricedList) (slots : Int)
    (force : Bool) : Option (List GoTx) × Bool × PricedList :=
  let r := discardLoop all (5 * pl.urgent.length + pl.floating.length) slots
    pl.urgent pl.floating [] pl.stales
  if 0 < r.slots ∧ force = false then
    (none, false,
      { pl with
        stales := r.stales
        urgent := List.foldl heapPush r.urgent r.drop
        floating := r.floating })
  else
    (some r.drop, true,
      { pl with
        stales := r.stales
        urgent := r.urgent
        floating := r.floating })

/-- Multiset of the live (still in `remotes`) transactions of a heap. -/
def liveMS (all : Lookup) (l : List GoTx) : Multiset GoTx :=
  (l.filter (fun a => !(all.getRemote a.txHash).isNone) : List GoTx)

theorem liveMS_nil (all : Lookup) : liveMS all [] = 0 := rfl

theorem liveMS_cons_stale {all : Lookup} {a : GoTx} (l : List GoTx)
    (h : (all.getRemote a.txHash).isNone = true) :
    liveMS all (a :: l) = liveMS all l := by
  unfold liveMS
  rw [List.filter_cons_of_neg (by simp [h])]

theorem liveMS_cons_live {all : Lookup} {a : GoTx} (l : List GoTx)
    (h : ¬ (all.getRemote a.txHash).isNone = true) :
    liveMS all (a :: l) = a ::ₘ liveMS all l := by
  unfold liveMS
  rw [List.filter_cons_of_pos (by simp [h])]
  rfl

theorem liveMS_heapPush {all : Lookup} {tx : GoTx} (f : List GoTx)
    (h : ¬ (all.getRemote tx.txHash).isNone = true) :
    liveMS all (heapPush f tx) = tx ::ₘ liveMS all f := by
  unfold liveMS heapPush
  have hperm : List.Perm (List.orderedInsert heapLE tx f) (tx :: f) :=
    List.perm_orderedInsert heapLE tx f
  have := hperm.filter (fun a => !(all.getRemote a.txHash).isNone)
  rw [Multiset.coe_eq_coe.mpr this]
  rw [List.filter_cons_of_pos (by simp [h])]
  rfl

theorem liveMS_foldl_push {all : Lookup} :
    ∀ (Δ : List GoTx) (u : List GoTx),
      (∀ tx ∈ Δ, all.getRemote tx.txHash ≠ none) →
      liveMS all (Δ.foldl heapPush u) = liveMS all u + (Δ : Multiset GoTx) := by
  intro Δ
  induction Δ with
  | nil => intro u _; simp
  | cons tx rest ih =>
    intro u hlive
    simp only [List.foldl_cons]
    rw [ih (heapPush u tx) (fun a ha => hlive a (List.mem_cons_of_mem _ ha))]
    rw [liveMS_heapPush u (by
      rw [Option.isNone_iff_eq_none]
      exact hlive tx (List.mem_cons_self _ _))]
    rw [show ((tx :: rest : List GoTx) : Multiset GoTx) = tx ::ₘ (rest : Multiset GoTx)
      from rfl]
    rw [Multiset.cons_add, Multiset.add_cons]

/-- The discard loop only ever appends live transactions to the drop list,
debits the slot counter by exactly their slot weights, and conserves the
combined multiset of live transactions across the heaps and the drops. -/
theorem discardLoop_spec (all : Lookup) :
    ∀ (fuel : Nat) (slots : Int) (u f drop : List GoTx) (stales : Int),
      ∃ Δ : List GoTx,
        (discardLoop all fuel slots u f drop stales).drop = drop ++ Δ ∧
        (∀ tx ∈ Δ, all.getRemote tx.txHash ≠ none) ∧
        (discardLoop all fuel slots u f drop stales).slots =
            slots - (Δ.map (fun tx => (numSlots tx : Int))).sum ∧
        liveMS all (discardLoop all fuel slots u f drop stales).urgent +
            liveMS all (discardLoop all fuel slots u f drop stales).floating +
            (Δ : Multiset GoTx) =
          liveMS all u + liveMS all f := by
  intro fuel
  induction fuel with
  | zero =>
    intro slots u f drop stales
    exact ⟨[], by simp [discardLoop], by simp, by simp [discardLoop], by
      simp [discardLoop]⟩
  | succ fuel ih =>
    intro slots u f drop stales
    simp only [discardLoop]
    by_cases hs : 0 < slots
    · rw [if_pos hs]
      by_cases hr : u.length * floatingRatio > f.length * urgentRatio
      · rw [if_pos hr]
        cases u with
        | nil => exact ⟨[], by simp, by simp, by simp, by simp⟩
        | cons tx u2 =>
          dsimp only
          by_cases hstale : (all.getRemote tx.txHash).isNone = true
          · rw [if_pos hstale]
            obtain ⟨Δ, h1, h2, h3, h4⟩ := ih slots u2 f drop (stales - 1)
            refine ⟨Δ, h1, h2, h3, ?_⟩
            rw [h4, liveMS_cons_stale u2 hstale]
          · rw [if_neg hstale]
            obtain ⟨Δ, h1, h2, h3, h4⟩ := ih slots u2 (heapPush f tx) drop stales
            refine ⟨Δ, h1, h2, h3, ?_⟩
            rw [h4, liveMS_heapPush f hstale, liveMS_cons_live u2 hstale]
            rw [Multiset.add_cons, Multiset.cons_add]
      · rw [if_neg hr]
        cases f with
        | nil => exact ⟨[], by simp, by simp, by simp, by simp⟩
        | cons tx f2 =>
          dsimp only
          by_cases hstale : (all.getRemote tx.txHash).isNone = true
          · rw [if_pos hstale]
            obtain ⟨Δ, h1, h2, h3, h4⟩ := ih slots u f2 drop (stales - 1)
            refine ⟨Δ, h1, h2, h3, ?_⟩
            rw [h4, liveMS_cons_stale f2 hstale]
          · rw [if_neg hstale]
            obtain ⟨Δ, h1, h2, h3, h4⟩ :=
              ih (slots - (numSlots tx : Int)) u f2 (drop ++ [tx]) stales
            refine ⟨tx :: Δ, ?_, ?_, ?_, ?_⟩
            · rw [h1, List.append_assoc]
              rfl
            · intro a ha
              rcases List.mem_cons.mp ha with rfl | ha
              · intro hnone
                rw [hnone] at hstale
                exact hstale rfl
              · exact h2 a ha
            · rw [h3]
              simp only [List.map_cons, List.sum_cons]
              ring
            · rw [liveMS_cons_live f2 hstale]
              rw [show ((tx :: Δ : List GoTx) : Multiset GoTx) =
                tx ::ₘ (Δ : Multiset GoTx) from rfl]
              simp only [Multiset.add_cons]
              rw [h4]
    · rw [if_neg hs]
      exact ⟨[], by simp, by simp, by simp, by simp⟩

/-- C4: `Discard(slots, force)` with `force = false` either succeeds,
returning live remote drops whose slot counts sum to at least the requested
slots, or fails with `(nil, false)` having dropped nothing: every popped
non-stale transaction was demoted to floating or pushed back to urgent, so
the combined multiset of live transactions in the two heaps is unchanged. -/
theorem priced_discard_atomic (all : Lookup) (pl : PricedList) (slots : Int) :
    ((pricedDiscard all pl slots false).2.1 = true →
      ∃ drops, (pricedDiscard all pl slots false).1 = some drops ∧
        slots ≤ (drops.map (fun tx => (numSlots tx : Int))).sum ∧
        ∀ tx ∈ drops, all.getRemote tx.txHash ≠ none) ∧
    ((pricedDiscard all pl slots false).2.1 = false →
      (pricedDiscard all pl slots false).1 = none ∧
        liveMS all (pricedDiscard all pl slots false).2.2.urgent +
            liveMS all (pricedDiscard all pl slots false).2.2.floating =
          liveMS all pl.urgent + liveMS all pl.floating) := by
  obtain ⟨Δ, h1, h2, h3, h4⟩ := discardLoop_spec all
    (5 * pl.urgent.length + pl.floating.length) slots pl.urgent pl.floating []
    pl.stales
  unfold pricedDiscard
  dsimp only
  set r := discardLoop all (5 * pl.urgent.length + pl.floating.length) slots
    pl.urgent pl.floating [] pl.stales with hr
  rw [List.nil_append] at h1
  by_cases hcond : 0 < r.slots ∧ false = false
  · rw [if_pos hcond]
    refine ⟨fun h => (nomatch h), fun _ => ⟨rfl, ?_⟩⟩
    simp only
    rw [h1, liveMS_foldl_push Δ r.urgent h2, ← h4]
    rw [add_right_comm]
  · rw [if_neg hcond]
    constructor
    · intro _
      refine ⟨r.drop, rfl, ?_, ?_⟩
      · have hslots : ¬ 0 < r.slots := fun hgt => hcond ⟨hgt, rfl⟩
        rw [h1]
        rw [h3] at hslots
        omega
      · rw [h1]
        exact h2
    · intro h
      exact nomatch h

/-- C4 witness: with empty heaps and one slot requested, the non-forced
discard fails and returns `nil`. -/
theorem priced_discard_atomic_witness :
    (pricedDiscard lkC5 pricedNew 1 false).2.1 = false ∧
      (pricedDiscard lkC5 pricedNew 1 false).1 = none :=
  ⟨by decide, ((priced_discard_atomic lkC5 pricedNew 1).2 (by decide)).1⟩

/-! ### Transaction typing and static validation
(src/types/transaction.go and src/txpool/pool_instance/tx_validation.go) -/

/-- `types.TxType`. -/
inductive TxType where
  | NormalTx
  | WithdrawTx
  | RechargeTx
  | UnkownTx
  deriving DecidableEq, Repr

/-- `Transaction.Type` (transaction.go, lines 55–71): a nonzero sender with
nil input coins is a normal transaction; a zero sender is a withdrawal when
only output coins are present and a recharge when only input coins are;
anything else is unknown. -/
def GoTx.type (tx : GoTx) : TxType :=
  if tx.fromAddr ≠ 0 then
    if tx.inputCoins = none then TxType.NormalTx else TxType.UnkownTx
  else
    if tx.inputCoins = none ∧ tx.outputCoins ≠ none then TxType.WithdrawTx
    else if tx.inputCoins ≠ none ∧ tx.outputCoins = none then TxType.RechargeTx
    else TxType.UnkownTx

/-- Gas parameters (src/unnamed/part_001, package `params`). -/
def TxGas : Nat := 21000

def TxGasContractCreation : Nat := 53000

def TxDataZeroGas : Nat := 4

def TxDataNonZeroGas : Nat := 16

def TxAccessListAddressGas : Nat := 2400

def TxAccessListStorageKeyGas : Nat := 1900

def InitCodeWordGas : Nat := 2

/-- `math.MaxUint64`. -/
def maxUint64 : Nat := 2 ^ 64 - 1

/-- Addition in `uint64` (wraps). -/
def u64add (a b : Nat) : Nat := (a + b) % 2 ^ 64

/-- Multiplication in `uint64` (wraps). -/
def u64mul (a b : Nat) : Nat := (a * b) % 2 ^ 64

/-- `toWordSize` (transaction.go, lines 154–160). -/
def toWordSize (size : Nat) : Nat :=
  if size > maxUint64 - 31 then maxUint64 / 32 + 1
  else (size + 31) / 32

/-- The typed errors of the pool (src/txpool/list.go error block and
`types.ErrGasUintOverflow`). -/
inductive PoolErr where
  | gasUintOverflow
  | txTypeNotSupported
  | oversizedData
  | negativeValue
  | gasLimitErr
  | priceVeryHigh
  | invalidSender
  | intrinsicGasErr
  | underpriced
  deriving DecidableEq, Repr

/-- `Transaction.IntrinsicGas` (transaction.go, lines 102–151).  The guarded
additions cannot overflow `uint64` (each guard checks exactly that), so they
are plain; the access-list additions are unguarded in Go and carry the
`uint64` wrap. -/
def intrinsicGas (tx : GoTx) : Except PoolErr Nat :=
  if tx.type = TxType.NormalTx then
    let gas1 : Nat := if tx.toAddr = 0 then TxGasContractCreation else TxGas
    let dataLen := tx.data.length
    let afterData : Except PoolErr Nat :=
      if dataLen > 0 then
        let nz := (tx.data.filter (fun b => b ≠ 0)).length
        if (maxUint64 - gas1) / TxDataNonZeroGas < nz then
          Except.error PoolErr.gasUintOverflow
        else
          let gas2 := gas1 + nz * TxDataNonZeroGas
          let z := dataLen - nz
          if (maxUint64 - gas2) / TxDataZeroGas < z then
            Except.error PoolErr.gasUintOverflow
          else
            let gas3 := gas2 + z * TxDataZeroGas
            if tx.toAddr = 0 then
              let lenWords := toWordSize dataLen
              if (maxUint64 - gas3) / InitCodeWordGas < lenWords then
                Except.error PoolErr.gasUintOverflow
              else Except.ok (gas3 + lenWords * InitCodeWordGas)
            else Except.ok gas3
      else Except.ok gas1
    match afterData with
    | Except.error e => Except.error e
    | Except.ok gas =>
      match tx.accessList with
      | none => Except.ok gas
      | some al =>
        Except.ok (u64add (u64add gas (u64mul al.1 TxAccessListAddressGas))
          (u64mul al.2 TxAccessListStorageKeyGas))
  else Except.ok 0

/-- `types.Header` as consumed by the validator (`GasLimit()`). -/
structure HeaderM where
  gasLimit : Nat
  deriving DecidableEq

/-- `txpool_instance.ValidationOptions`. -/
structure VOptions where
  maxSize : Nat
  minTip : Int
  deriving DecidableEq

/-- `ValidateTransaction` (tx_validation.go, lines 24–73): unknown kinds are
rejected; for normal transactions the oversize, negative-value,
block-gas-limit, price-bit-length, signature, intrinsic-gas and minimum-tip
checks run in order; recharge and withdrawal transactions pass with no
checks.  `nil` is `none`, a typed error is `some`. -/
def validateTransaction (tx : GoTx) (head : HeaderM) (opts : VOptions) :
    Option PoolErr :=
  match tx.type with
  | TxType.UnkownTx => some PoolErr.txTypeNotSupported
  | _ =>
    if tx.type = TxType.NormalTx then
      if tx.size > opts.maxSize then some PoolErr.oversizedData
      else if tx.value < 0 then some PoolErr.negativeValue
      else if head.gasLimit < tx.gasLimit then some PoolErr.gasLimitErr
      else if intBitLen tx.price > 256 then some PoolErr.priceVeryHigh
      else
        match tx.getFrom with
        | none => some PoolErr.invalidSender
        | some _ =>
          match intrinsicGas tx with
          | Except.error e => some e
          | Except.ok intrGas =>
            if tx.gasLimit < intrGas then some PoolErr.intrinsicGasErr
            else if tx.price < opts.minTip then some PoolErr.underpriced
            else none
    else none

/-- C9: for every transaction whose kind is recharge or withdrawal,
`ValidateTransaction` returns `nil` whatever the header and options — the
oversize, negative-value, block-gas-limit, price-bit-length, signature,
intrinsic-gas and minimum-tip checks apply only to normal transactions —
and every transaction of unrecognized kind is rejected with
`ErrTxTypeNotSupported`. -/
theorem validateTransaction_type_gate (tx : GoTx) (head : HeaderM)
    (opts : VOptions) :
    (tx.type = TxType.RechargeTx ∨ tx.type = TxType.WithdrawTx →
      validateTransaction tx head opts = none) ∧
    (tx.type = TxType.UnkownTx →
      validateTransaction tx head opts = some PoolErr.txTypeNotSupported) := by
  constructor
  · intro h
    rcases h with h | h <;> simp [validateTransaction, h]
  · intro h
    simp [validateTransaction, h]

/-- A recharge transaction whose fields would fail every normal-kind check:
oversized, negative value, huge gas limit, unrecoverable signature. -/
def rtxBad : GoTx :=
  { txHash := 77, fromAddr := 0, nonce := 3, gasLimit := 10 ^ 9,
    price := 1, value := -5, inputCoins := some [1], outputCoins := none,
    toAddr := 9, data := [1, 2, 3], accessList := none, getFrom := none,
    size := 10 ^ 9 }

/-- C9 witness: `rtxBad` is a recharge transaction, so validation returns
`nil` despite its oversized, negative-valued, signature-less fields. -/
theorem validateTransaction_type_gate_witness :
    rtxBad.type = TxType.RechargeTx ∧
      validateTransaction rtxBad { gasLimit := 0 } { maxSize := 10, minTip := 3 } =
        none :=
  ⟨by decide,
    (validateTransaction_type_gate rtxBad { gasLimit := 0 }
      { maxSize := 10, minTip := 3 }).1 (Or.inl (by decide))⟩

/-- C2: `SortedMap.Forward` breaks only when the smallest nonce is strictly
greater than the threshold, so an entry whose nonce equals the threshold is
removed and returned: on the map `{5 ↦ txF5}`, `Forward(5)` empties the map,
contradicting the documented contract (and the spec law) that exactly the
entries with nonce strictly below the threshold are removed. -/
theorem sortedMap_forward_removes_nonce_equal_threshold :
    SortedMap.forward [(5, txF5)] 5 = ([], [txF5]) ∧ ¬ 5 < 5 := by
  constructor
  · decide
  · decide

end Execution
